import Mathlib

/-!
Verification development for the M-adjustment enumeration engine (listMAdj.py).

The source models DAGs with the networkx DiGraph class (node list + directed edge
list, no parallel edges); here a graph is a list of node names and a list of
directed edges.  Python while-loops over an explicit stack are embedded as
fuel-indexed tail-recursive functions whose state is exactly the tuple of the
Python loop variables; for acyclic well-formed graphs the fuel
(edges+1)^nodes is proved sufficient, so the functions compute the same
values the Python loops do.  Fallible networkx operations (remove_edge on an
absent edge, indexing an empty list) are embedded in the Except monad.

The d-separation oracle is not part of the repository (the source delegates to
nx.d_separated); it is modelled from the spec, see dSeparated below.
-/

set_option maxHeartbeats 2000000

namespace MAdj

/-- Errors surfaced by the embedded library operations: indexing an empty
list (Python IndexError) and removing an absent edge (networkx error). -/
inductive PyError where
  | indexError : PyError
  | networkxError : PyError
deriving DecidableEq

/-- A directed graph in the style of a networkx DiGraph: a list of node names
and a list of directed edges (source, sink).  Well-formed graphs have
duplicate-free node and edge lists with edge endpoints among the nodes. -/
structure DiGraph where
  nodes : List String
  edges : List (String × String)
deriving DecidableEq

/-- Successors of a vertex, in edge-insertion order (networkx G.successors). -/
def successors (G : DiGraph) (v : String) : List String :=
  (G.edges.filter (fun e => decide (e.1 = v))).map (fun e => e.2)

/-- Predecessors of a vertex, in edge-insertion order (networkx G.predecessors). -/
def predecessors (G : DiGraph) (v : String) : List String :=
  (G.edges.filter (fun e => decide (e.2 = v))).map (fun e => e.1)

/-- networkx G.has_edge. -/
def hasEdge (G : DiGraph) (u v : String) : Bool :=
  decide ((u, v) ∈ G.edges)

/-- networkx G.remove_edge: fails if the edge is absent. -/
def removeEdge (G : DiGraph) (u v : String) : Except PyError DiGraph :=
  if (u, v) ∈ G.edges then
    Except.ok ⟨G.nodes, G.edges.erase (u, v)⟩
  else
    Except.error PyError.networkxError

/-- The edge relation of a graph. -/
def Edge (G : DiGraph) (u v : String) : Prop := (u, v) ∈ G.edges

/-- Reflexive-transitive reachability along directed edges. -/
def ReachesF (G : DiGraph) : String → String → Prop :=
  Relation.ReflTransGen (Edge G)

/-- The graph has no directed cycle: no vertex reaches itself through at
least one edge. -/
def Acyclic (G : DiGraph) : Prop :=
  ∀ v, ¬ Relation.TransGen (Edge G) v v

/-- Structural well-formedness of a graph as built by networkx: edge endpoints
are declared nodes, and node and edge lists are duplicate-free. -/
def WF (G : DiGraph) : Prop :=
  (∀ e ∈ G.edges, e.1 ∈ G.nodes ∧ e.2 ∈ G.nodes) ∧ G.edges.Nodup ∧ G.nodes.Nodup

/-- A list of vertices forms a directed walk (consecutive elements are edges). -/
def IsWalk (G : DiGraph) (p : List String) : Prop :=
  List.Chain' (Edge G) p

/-- A directed walk from X to Y. -/
@[reducible]
def IsWalkFromTo (G : DiGraph) (p : List String) (X Y : String) : Prop :=
  IsWalk G p ∧ p.head? = some X ∧ p.getLast? = some Y

/-- Fuel bound used to run the stack-based traversals to completion; proved
sufficient for acyclic well-formed graphs. -/
def defaultFuel (G : DiGraph) : Nat :=
  (G.edges.length + 1) ^ G.nodes.length

/-- The inner while-loop of findProperCausalPath: pop pathSoFar until its last
element is the parent that put the current vertex on the stack.  pathSoFar is
kept reversed (most recent vertex first), so the Python list pop is head
removal; a parent of none (the initial stack entry) empties the list, matching
the Python comparison of a string with None. -/
def truncate : List String → Option String → List String
  | [], _ => []
  | x :: xs, parent => if some x = parent then x :: xs else truncate xs parent

/-- The while-loop of findProperCausalPath.  State: the DFS stack of
(vertex, parent) entries (top first), pathSoFar reversed, and the collected
paths (each already re-reversed into source order).  Children are pushed in
successor order onto the Python list end, so they are popped in reverse
order; with the stack head as top this prepends the reversed successor
list. -/
def pcpLoop (G : DiGraph) (Y : String) :
    Nat → List (String × Option String) × List String × List (List String) →
    List (String × Option String) × List String × List (List String)
  | 0, st => st
  | _ + 1, ([], pathSoFar, paths) => ([], pathSoFar, paths)
  | fuel + 1, ((cur, parent) :: stk, pathSoFar, paths) =>
      let pathSoFar' := cur :: truncate pathSoFar parent
      let paths' := if cur = Y then paths ++ [pathSoFar'.reverse] else paths
      pcpLoop G Y fuel
        (((successors G cur).map (fun child => (child, some cur))).reverse ++ stk,
         pathSoFar', paths')

/-- Conversion of a vertex path to its edge-list representation, as in the
final loop of findProperCausalPath. -/
def toEdgePath (path : List String) : List (String × String) :=
  path.zip path.tail

/-- findProperCausalPath from the source: DFS from X collecting every directed
path that ends at Y, returned as edge lists. -/
def findProperCausalPath (G : DiGraph) (X Y : String) : List (List (String × String)) :=
  ((pcpLoop G Y (defaultFuel G) ([(X, none)], [], [])).2.2).map toEdgePath

/-- createProperBackdoorGraph from the source: remove the first edge of every
path, guarded by has_edge so repeated first edges are silent no-ops; indexing
an empty path raises IndexError. -/
def createProperBackdoorGraph (G : DiGraph) (paths : List (List (String × String))) :
    Except PyError DiGraph :=
  paths.foldlM (fun Gc path =>
    match path with
    | [] => Except.error PyError.indexError
    | (source, sink) :: _ =>
        if hasEdge Gc source sink then removeEdge Gc source sink else Except.ok Gc) G

/-- createGXBarAbove from the source: remove every incoming edge of X,
iterating over the predecessors of X in the original graph. -/
def createGXBarAbove (G : DiGraph) (X : String) : Except PyError DiGraph :=
  (predecessors G X).foldlM (fun Gc parent => removeEdge Gc parent X) G

/-- createGXBarBelow from the source: remove every outgoing edge of X,
iterating over the successors of X in the original graph. -/
def createGXBarBelow (G : DiGraph) (X : String) : Except PyError DiGraph :=
  (successors G X).foldlM (fun Gc child => removeEdge Gc X child) G

/-- The while-loop of findDescendants.  State: the DFS stack and the collected
descendant list (the current vertex is appended before its children are
pushed; there is no visited set, so vertices reachable along several walks are
appended several times). -/
def descLoop (G : DiGraph) :
    Nat → List String × List String → List String × List String
  | 0, st => st
  | _ + 1, ([], descendants) => ([], descendants)
  | fuel + 1, (cur :: stk, descendants) =>
      descLoop G fuel ((successors G cur).reverse ++ stk, descendants ++ [cur])

/-- findDescendants from the source: all vertices reachable from source
(including source itself), in DFS preorder with repetitions. -/
def findDescendants (G : DiGraph) (source : String) : List String :=
  (descLoop G (defaultFuel G) ([source], [])).2

/-- The inner while-loop of isAncestor for one start vertex: DFS through
predecessors, returning true as soon as X is popped.  The second component is
the remaining stack (empty when the loop ran to exhaustion without finding
X). -/
def ancInner (G : DiGraph) (X : String) : Nat → List String → Bool × List String
  | 0, stk => (false, stk)
  | _ + 1, [] => (false, [])
  | fuel + 1, cur :: stk =>
      if cur = X then (true, stk)
      else ancInner G X fuel ((predecessors G cur).reverse ++ stk)

/-- isAncestor from the source: X is an ancestor of some vertex in V, decided
by one backward DFS per vertex with early return. -/
def isAncestor (G : DiGraph) (X : String) (V : List String) : Bool :=
  V.foldl (fun found vertex => found || (ancInner G X (defaultFuel G) [vertex]).1) false

/-- Modelled from the spec: the ancestor closure Anc(Z) used by the
d-separation oracle of section 4.D; the oracle itself (nx.d_separated) is a
library call whose code is not part of this repository.  A node is in the
closure iff some member of Z is among its descendants. -/
def ancClosure (G : DiGraph) (Z : List String) : List String :=
  G.nodes.filter (fun u => Z.any (fun z => (findDescendants G u).contains z))

/-- Modelled from the spec: one expansion step of the Bayes-ball reachability
of section 4.D.  A state is a node with its arrival direction; true means the
ball arrived from a child (it may pass to parents and children when the node
is not conditioned on), false means it arrived from a parent (chains need the
node unconditioned, colliders need it in the ancestor closure of Z). -/
def bbNext (G : DiGraph) (Z ancZ : List String) : String × Bool → List (String × Bool)
  | (n, fromChild) =>
      let toChildren := (successors G n).map (fun c => (c, false))
      let toParents := (predecessors G n).map (fun p => (p, true))
      if fromChild then
        if Z.contains n then [] else toChildren ++ toParents
      else
        (if Z.contains n then [] else toChildren) ++
        (if ancZ.contains n then toParents else [])

/-- Modelled from the spec: grow the reached state set by one round of
Bayes-ball expansion. -/
def bbExpand (G : DiGraph) (Z ancZ : List String) (states : List (String × Bool)) :
    List (String × Bool) :=
  (states ++ (states.map (bbNext G Z ancZ)).flatten).dedup

/-- Modelled from the spec: the d-separation oracle of section 4.D
(nx.d_separated in the source, not part of this repository).  Start from
every node of A marked as arrived from a child, expand to a fixpoint (the
state space has at most two states per node, so 2|nodes|+2 rounds reach it),
and report separation iff no node of B was reached. -/
def dSeparated (G : DiGraph) (A B Z : List String) : Bool :=
  let ancZ := ancClosure G Z
  let final := Nat.iterate (bbExpand G Z ancZ) (2 * G.nodes.length + 2)
    (A.map (fun a => (a, true)))
  ! B.any (fun b => final.any (fun s => s.1 == b))

/-- Binary digits of a number, least significant first, with explicit fuel
(the number itself bounds the recursion depth); empty for zero. -/
def bitsAux : Nat → Nat → List Char
  | 0, _ => []
  | _ + 1, 0 => []
  | fuel + 1, n + 1 =>
      (if (n + 1) % 2 = 1 then '1' else '0') :: bitsAux fuel ((n + 1) / 2)

/-- Binary digits of a number, least significant first; empty for zero. -/
def bits (i : Nat) : List Char := bitsAux i i

/-- Python bin(i)[2:]: most-significant-first binary digits, with a single
zero digit for zero. -/
def pyBin (i : Nat) : List Char :=
  if i = 0 then ['0'] else (bits i).reverse

/-- Python str.zfill: left-pad with zero digits to the requested width. -/
def zfill (s : List Char) (width : Nat) : List Char :=
  List.replicate (width - s.length) '0' ++ s

/-- The binString of the subset loop: bin(i)[2:].zfill(varNum). -/
def binString (i varNum : Nat) : List Char :=
  zfill (pyBin i) varNum

/-- The D_pcp accumulation of listMAdj: a Python set collecting, for every
edge of every proper causal path, all descendants of both endpoints. -/
def dpcpOf (G : DiGraph) (paths : List (List (String × String))) : Finset String :=
  paths.foldl (fun s path =>
    path.foldl (fun s e =>
      (findDescendants G e.2).foldl (fun s v => insert v s)
        ((findDescendants G e.1).foldl (fun s v => insert v s) s)) s) ∅

/-- The per-index body of the Z / R_W construction loop of listMAdj: when bit
j of the binary string is set the variable name joins Z and (unless it names
X or Y) its missingness indicator joins R_W; the indicators of the entries
named X or Y always join R_W. -/
def zrwStep (X Y : String) (bs : List Char) (V : List (String × Option String))
    (zr : List String × List String) (j : Nat) : List String × List String :=
  let entry := V.getD j (default, none)
  let zr1 :=
    if bs.getD j '0' = '1' then
      (zr.1 ++ [entry.1],
       match entry.2 with
       | some m => if entry.1 ≠ X ∧ entry.1 ≠ Y then zr.2 ++ [m] else zr.2
       | none => zr.2)
    else zr
  match entry.2 with
  | some m => if entry.1 = X ∨ entry.1 = Y then (zr1.1, zr1.2 ++ [m]) else zr1
  | none => zr1

/-- The bestSet update of the subset loop: replace the current best when the
new set is strictly smaller or no best exists. -/
def bestStep (best : Option (List String)) (Z : List String) : Option (List String) :=
  match best with
  | none => some Z
  | some b => if Z.length < b.length then some Z else some b

/-- One iteration of the subset loop of listMAdj for counter value i: build Z
and R_W from the binary string, then test the four M-adjustment conditions in
order with early continue, appending Z and updating the best set when all
hold. -/
def listMAdjStep (G : DiGraph) (X Y : String) (V : List (String × Option String))
    (properCausalPaths : List (List (String × String))) (D_pcp : Finset String)
    (st : List (List String) × Option (List String)) (i : Nat) :
    Except PyError (List (List String) × Option (List String)) := do
  let bs := binString i V.length
  let zrw := (List.range V.length).foldl (zrwStep X Y bs V) ([], [])
  let Z := zrw.1
  let R_W := zrw.2
  if Z.any (fun vertex => decide (vertex ∈ D_pcp)) then
    pure st
  else do
    let G_pbd ← createProperBackdoorGraph G properCausalPaths
    if ! dSeparated G_pbd [Y] [X] (Z ++ R_W) then
      pure st
    else do
      let GXBarAbove ← createGXBarAbove G X
      if ! dSeparated GXBarAbove [Y] R_W [X] then
        pure st
      else do
        let cond4 ← (if isAncestor G X R_W then do
            let GXBarBelow ← createGXBarBelow G X
            pure (dSeparated GXBarBelow [X] [Y] [])
          else pure true)
        if ! cond4 then
          pure st
        else
          pure (st.1 ++ [Z], bestStep st.2 Z)

/-- listMAdj from the source: enumerate every subset of V by an n-bit counter
in increasing order, running one listMAdjStep per counter value on state
(validSets, bestSet). -/
def listMAdj (G : DiGraph) (X Y : String) (V : List (String × Option String)) :
    Except PyError (List (List String) × Option (List String)) :=
  let properCausalPaths := findProperCausalPath G X Y
  let D_pcp := dpcpOf G properCausalPaths
  (List.range (2 ^ V.length)).foldlM (listMAdjStep G X Y V properCausalPaths D_pcp)
    ([], none)

/-! Reference functions and measures used to prove the stack machines correct. -/

/-- The graph with every edge reversed; the backward DFS of isAncestor is the
forward DFS on this graph. -/
def reverseG (G : DiGraph) : DiGraph :=
  ⟨G.nodes, G.edges.map (fun e => (e.2, e.1))⟩

/-- Length of the longest directed walk leaving u, computed with fuel; stable
once the fuel dominates every walk length. -/
def heightF (G : DiGraph) : Nat → String → Nat
  | 0, _ => 0
  | k + 1, u => ((successors G u).map (fun c => heightF G k c + 1)).foldr max 0

/-- Height of a vertex at the canonical fuel (the number of nodes). -/
def height (G : DiGraph) (u : String) : Nat :=
  heightF G G.nodes.length u

/-- Every walk leaving u has at most j further vertices. -/
def WalkBnd (G : DiGraph) (u : String) (j : Nat) : Prop :=
  ∀ p, IsWalk G (u :: p) → p.length ≤ j

/-- Termination measure of a DFS stack: summed exponentials of the heights of
the stacked vertices.  Popping a vertex and pushing its successors strictly
decreases it on acyclic graphs. -/
def measureL (G : DiGraph) (l : List String) : Nat :=
  (l.map (fun c => (G.edges.length + 1) ^ height G c)).sum

/-- Recursive reference form of the descendants DFS: the vertex followed by
the exploration of each successor subtree, in the order the stack machine
visits them. -/
def descTreeF (G : DiGraph) : Nat → String → List String
  | 0, u => [u]
  | k + 1, u => u :: ((successors G u).reverse.map (descTreeF G k)).flatten

/-- descTreeF at the canonical fuel. -/
def descTree (G : DiGraph) (u : String) : List String :=
  descTreeF G G.nodes.length u

/-- Recursive reference form of the proper-causal-path DFS: pref is the
reversed path to the parent of u; a path is emitted whenever u = Y, and all
successor subtrees are explored in stack order. -/
def pcpTreeF (G : DiGraph) (Y : String) : Nat → List String → String → List (List String)
  | 0, pref, u => if u = Y then [(u :: pref).reverse] else []
  | k + 1, pref, u =>
      (if u = Y then [(u :: pref).reverse] else []) ++
      ((successors G u).reverse.map (fun c => pcpTreeF G Y k (u :: pref) c)).flatten

/-- pcpTreeF at the canonical fuel. -/
def pcpTree (G : DiGraph) (Y : String) (pref : List String) (u : String) :
    List (List String) :=
  pcpTreeF G Y G.nodes.length pref u

/-- Intended output of the remaining stack of the path DFS: each entry
contributes the subtree rooted at its vertex with the path truncated back to
its parent. -/
def stkSem (G : DiGraph) (Y : String) : List String → List (String × Option String) →
    List (List String)
  | _, [] => []
  | ps, e :: rest => pcpTree G Y (truncate ps e.2) e.1 ++ stkSem G Y (truncate ps e.2) rest

/-- The path after a block of stack entries has been discharged. -/
def trAfter (ps : List String) (l : List (String × Option String)) : List String :=
  l.foldl (fun s e => truncate s e.2) ps

/-- A stack entry is coherent with the current path: its parent (when present)
is an edge-predecessor of its vertex and occurs on the path. -/
def EntryOk (G : DiGraph) (ps : List String) : String × Option String → Prop
  | (_, none) => True
  | (c, some u) => (u, c) ∈ G.edges ∧ u ∈ ps

/-- The whole stack is coherent: entries are nested, each holding for the path
truncated back to the parents of the entries above it. -/
def StkOk (G : DiGraph) : List String → List (String × Option String) → Prop
  | _, [] => True
  | ps, e :: rest => EntryOk G ps e ∧ StkOk G (truncate ps e.2) rest

/-- pathSoFar stored reversed is a directed walk read backwards. -/
def RevWalk (G : DiGraph) (ps : List String) : Prop :=
  List.Chain' (fun a b => (b, a) ∈ G.edges) ps

/-- Measure of the path-DFS stack. -/
def measureP (G : DiGraph) (stk : List (String × Option String)) : Nat :=
  measureL G (stk.map (fun e => e.1))

/-! Specification-side descriptions of the computed values. -/

/-- The first edge of every path (paths are edge lists). -/
def firstEdges (paths : List (List (String × String))) : List (String × String) :=
  paths.filterMap List.head?

/-- The proper backdoor graph described directly: drop the first edge of every
path. -/
def pbdSpec (G : DiGraph) (paths : List (List (String × String))) : DiGraph :=
  ⟨G.nodes, G.edges.filter (fun e => decide (e ∉ firstEdges paths))⟩

/-- The graph with every edge whose sink is X removed. -/
def gxAboveSpec (G : DiGraph) (X : String) : DiGraph :=
  ⟨G.nodes, G.edges.filter (fun e => decide (e.2 ≠ X))⟩

/-- The graph with every edge whose source is X removed. -/
def gxBelowSpec (G : DiGraph) (X : String) : DiGraph :=
  ⟨G.nodes, G.edges.filter (fun e => decide (e.1 ≠ X))⟩

/-- The indices of V selected by counter value i: position j of the
zero-filled most-significant-first binary string of i is set exactly when bit
V.length - 1 - j of i is set. -/
def selIdx (n i : Nat) : List Nat :=
  (List.range n).filter (fun j => i.testBit (n - 1 - j))

/-- The candidate set Z selected by counter value i, in index order. -/
def Zsel (V : List (String × Option String)) (i : Nat) : List String :=
  (selIdx V.length i).map (fun j => (V.getD j (default, none)).1)

/-- The R_W contribution of index j under counter value i: the indicator of a
selected entry not named X or Y, followed by the indicator of an entry named
X or Y. -/
def rwContrib (X Y : String) (V : List (String × Option String)) (i j : Nat) :
    List String :=
  let entry := V.getD j (default, none)
  match entry.2 with
  | some m =>
      (if i.testBit (V.length - 1 - j) ∧ entry.1 ≠ X ∧ entry.1 ≠ Y then [m] else []) ++
      (if entry.1 = X ∨ entry.1 = Y then [m] else [])
  | none => []

/-- The induced missingness set R_W selected by counter value i, in index
order. -/
def RWsel (X Y : String) (V : List (String × Option String)) (i : Nat) : List String :=
  ((List.range V.length).map (rwContrib X Y V i)).flatten

/-- D_pcp as a flat list: descendants of both endpoints of every edge of
every proper causal path. -/
def dpcpList (G : DiGraph) (paths : List (List (String × String))) : List String :=
  (paths.flatten.map (fun e => findDescendants G e.1 ++ findDescendants G e.2)).flatten

/-- The four M-adjustment conditions for counter value i, as a single test. -/
def MCond (G : DiGraph) (X Y : String) (V : List (String × Option String)) (i : Nat) :
    Bool :=
  let Z := Zsel V i
  let R := RWsel X Y V i
  let paths := findProperCausalPath G X Y
  Z.all (fun v => decide (v ∉ dpcpList G paths)) &&
  dSeparated (pbdSpec G paths) [Y] [X] (Z ++ R) &&
  dSeparated (gxAboveSpec G X) [Y] R [X] &&
  (! isAncestor G X R || dSeparated (gxBelowSpec G X) [X] [Y] [])

/-- The first element of minimal length, computed exactly as the bestSet
update of the loop does. -/
def bestOf (l : List (List String)) : Option (List String) :=
  l.foldl bestStep none

/-- The valid sets of listMAdj, described directly: the candidates of every
counter value passing the four conditions, in counter order. -/
def validSpec (G : DiGraph) (X Y : String) (V : List (String × Option String)) :
    List (List String) :=
  (List.range (2 ^ V.length)).filterMap (fun i =>
    if MCond G X Y V i then some (Zsel V i) else none)

/-- Follows the words of claim C1 (refinement comparison): the candidate set
with bit j of i selecting V[j] directly. -/
def ZselClaim (V : List (String × Option String)) (i : Nat) : List String :=
  ((List.range V.length).filter (fun j => i.testBit j)).map
    (fun j => (V.getD j (default, none)).1)

/-- Follows the words of claim C1 (refinement comparison): R_W with bit j of
i selecting V[j] directly. -/
def RWselClaim (X Y : String) (V : List (String × Option String)) (i : Nat) :
    List String :=
  ((List.range V.length).map (fun j =>
    let entry := V.getD j (default, none)
    match entry.2 with
    | some m =>
        (if i.testBit j ∧ entry.1 ≠ X ∧ entry.1 ≠ Y then [m] else []) ++
        (if entry.1 = X ∨ entry.1 = Y then [m] else [])
    | none => [])).flatten

/-- Follows the words of claim C1 (refinement comparison): the four
conditions evaluated on the claim's candidate sets. -/
def MCondClaim (G : DiGraph) (X Y : String) (V : List (String × Option String))
    (i : Nat) : Bool :=
  let Z := ZselClaim V i
  let R := RWselClaim X Y V i
  let paths := findProperCausalPath G X Y
  Z.all (fun v => decide (v ∉ dpcpList G paths)) &&
  dSeparated (pbdSpec G paths) [Y] [X] (Z ++ R) &&
  dSeparated (gxAboveSpec G X) [Y] R [X] &&
  (! isAncestor G X R || dSeparated (gxBelowSpec G X) [X] [Y] [])

/-- Follows the words of claim C1 (refinement comparison): the valid sets in
increasing counter order with Z = set of V[j] for the set bits j of i. -/
def validClaim (G : DiGraph) (X Y : String) (V : List (String × Option String)) :
    List (List String) :=
  (List.range (2 ^ V.length)).filterMap (fun i =>
    if MCondClaim G X Y V i then some (ZselClaim V i) else none)

/-! Termination predicates for the three stack machines. -/

/-- The descendants DFS at the canonical fuel runs its stack to empty. -/
def descTerminated (G : DiGraph) (source : String) : Prop :=
  (descLoop G (defaultFuel G) ([source], [])).1 = []

/-- The backward DFS of isAncestor at the canonical fuel either finds X or
runs its stack to empty. -/
def ancTerminated (G : DiGraph) (X vertex : String) : Prop :=
  (ancInner G X (defaultFuel G) [vertex]).1 = true ∨
  (ancInner G X (defaultFuel G) [vertex]).2 = []

/-- The path DFS at the canonical fuel runs its stack to empty. -/
def pcpTerminated (G : DiGraph) (X Y : String) : Prop :=
  (pcpLoop G Y (defaultFuel G) ([(X, none)], [], [])).1 = []

/-! Concrete instances (node names are written as character lists). -/

/-- Rank of a vertex in a candidate topological order. -/
def rankIn (l : List String) (v : String) : Nat :=
  l.findIdx (fun x => x == v)

def nmA : String := ⟨['A']⟩
def nmM1 : String := ⟨['M', '1']⟩
def nmM2 : String := ⟨['M', '2']⟩
def nmY : String := ⟨['Y']⟩
def nmC1 : String := ⟨['C', '1']⟩
def nmC2 : String := ⟨['C', '2']⟩
def nmC3 : String := ⟨['C', '3']⟩
def nmC4 : String := ⟨['C', '4']⟩
def nmC5 : String := ⟨['C', '5']⟩
def nmX : String := ⟨['X']⟩
def nmC : String := ⟨['C']⟩
def nmU : String := ⟨['u']⟩
def nmB : String := ⟨['b']⟩
def nmD : String := ⟨['d']⟩
def nmE : String := ⟨['e']⟩
def nmV0 : String := ⟨['v', '0']⟩
def nmV1 : String := ⟨['v', '1']⟩

/-- The scenario S1 graph (createTestGraph in the source). -/
def g1 : DiGraph :=
  ⟨[nmA, nmM1, nmM2, nmY, nmC1, nmC2, nmC3, nmC4, nmC5],
   [(nmA, nmM1), (nmA, nmM2), (nmM1, nmY), (nmM2, nmY), (nmC1, nmC3), (nmC1, nmC4),
    (nmC2, nmC4), (nmC2, nmC5), (nmC3, nmA), (nmC4, nmA), (nmC4, nmM1), (nmC4, nmY),
    (nmC5, nmY), (nmM1, nmM2)]⟩

/-- A topological order of g1. -/
def g1Topo : List String :=
  [nmC1, nmC2, nmC3, nmC5, nmC4, nmA, nmM1, nmM2, nmY]

/-- A diamond: two walks from u to d. -/
def diamondG : DiGraph :=
  ⟨[nmU, nmB, nmC, nmD], [(nmU, nmB), (nmU, nmC), (nmB, nmD), (nmC, nmD)]⟩

/-- The order-counterexample instance: one causal edge X to Y and two isolated
candidate variables. -/
def cexG : DiGraph :=
  ⟨[nmX, nmY, nmV0, nmV1], [(nmX, nmY)]⟩

/-- Variable sequence of the order-counterexample instance. -/
def cexV : List (String × Option String) :=
  [(nmV0, none), (nmV1, none)]

/-- Variable sequence with a duplicate entry. -/
def dupV : List (String × Option String) :=
  [(nmV0, none), (nmV0, none)]

/-- A fork: C points at both X and Y, no directed path from X to Y. -/
def forkG : DiGraph :=
  ⟨[nmX, nmC, nmY], [(nmC, nmX), (nmC, nmY)]⟩

/-- A single node graph, used for the X = Y failure. -/
def singleG : DiGraph :=
  ⟨[nmX], []⟩

/-- A two-cycle, on which the traversals never terminate. -/
def cycG : DiGraph :=
  ⟨[nmB, nmC], [(nmB, nmC), (nmC, nmB)]⟩

/-! Basic lemmas on successors, predecessors and the reversed graph. -/

lemma mem_successors {G : DiGraph} {u c : String} :
    c ∈ successors G u ↔ (u, c) ∈ G.edges := by
  unfold successors
  simp only [List.mem_map, List.mem_filter, decide_eq_true_eq]
  constructor
  · rintro ⟨⟨a, b⟩, ⟨he, h1⟩, h2⟩
    simp only at h1 h2
    subst h1 h2
    exact he
  · intro h
    exact ⟨(u, c), ⟨h, rfl⟩, rfl⟩

lemma mem_predecessors {G : DiGraph} {v p : String} :
    p ∈ predecessors G v ↔ (p, v) ∈ G.edges := by
  unfold predecessors
  simp only [List.mem_map, List.mem_filter, decide_eq_true_eq]
  constructor
  · rintro ⟨⟨a, b⟩, ⟨he, h1⟩, h2⟩
    simp only at h1 h2
    subst h1 h2
    exact he
  · intro h
    exact ⟨(p, v), ⟨h, rfl⟩, rfl⟩

lemma predecessors_eq_reverse (G : DiGraph) (v : String) :
    predecessors G v = successors (reverseG G) v := by
  unfold predecessors successors reverseG
  simp only
  induction G.edges with
  | nil => rfl
  | cons e es ih =>
      rcases e with ⟨a, b⟩
      by_cases h : b = v
      · subst h
        simp [List.filter_cons, ih]
      · simp [List.filter_cons, h, ih]

lemma reverseG_edge {G : DiGraph} {u v : String} :
    Edge (reverseG G) u v ↔ Edge G v u := by
  unfold Edge reverseG
  simp only [List.mem_map, Prod.exists]
  constructor
  · rintro ⟨a, b, hm, he⟩
    cases he
    exact hm
  · intro h
    exact ⟨v, u, h, rfl⟩

lemma reverseG_acyclic {G : DiGraph} (h : Acyclic G) : Acyclic (reverseG G) := by
  intro v hv
  apply h v
  have : Relation.TransGen (Function.swap (Edge G)) v v := by
    have hmono : ∀ a b, Edge (reverseG G) a b → Function.swap (Edge G) a b := by
      intro a b hab
      exact reverseG_edge.mp hab
    exact Relation.TransGen.mono hmono hv
  exact Relation.transGen_swap.mp this

lemma reverseG_wf {G : DiGraph} (h : WF G) : WF (reverseG G) := by
  obtain ⟨h1, h2, h3⟩ := h
  have hinj : Function.Injective (fun e : String × String => (e.2, e.1)) := by
    intro a b hab
    rcases a with ⟨a1, a2⟩
    rcases b with ⟨b1, b2⟩
    simp only [Prod.mk.injEq] at hab
    exact Prod.ext hab.2 hab.1
  refine ⟨?_, ?_, h3⟩
  · rintro ⟨a, b⟩ hm
    obtain ⟨e, hem, hee⟩ := List.mem_map.mp hm
    rcases e with ⟨x, y⟩
    cases hee
    exact ⟨(h1 (x, y) hem).2, (h1 (x, y) hem).1⟩
  · exact h2.map hinj

lemma reverseG_nodes (G : DiGraph) : (reverseG G).nodes = G.nodes := rfl

lemma reverseG_edges_length (G : DiGraph) :
    (reverseG G).edges.length = G.edges.length := by
  unfold reverseG
  simp

/-! Walks, acyclicity and length bounds. -/

lemma chain'_transGen {r : String → String → Prop} {x : String} {l : List String}
    (h : List.Chain' r (x :: l)) {y : String} (hy : y ∈ l) :
    Relation.TransGen r x y := by
  induction l generalizing x with
  | nil => cases hy
  | cons b t ih =>
      have hxb : r x b := (List.chain'_cons.mp h).1
      rcases List.mem_cons.mp hy with hy | hy
      · subst hy
        exact Relation.TransGen.single hxb
      · exact Relation.TransGen.head hxb (ih (List.chain'_cons.mp h).2 hy)

lemma walk_nodup {G : DiGraph} (hA : Acyclic G) :
    ∀ {p : List String}, IsWalk G p → p.Nodup := by
  intro p
  induction p with
  | nil => intro _; exact List.nodup_nil
  | cons a t ih =>
      intro h
      have ht : IsWalk G t := (List.chain'_cons'.mp h).2
      refine List.nodup_cons.mpr ⟨?_, ih ht⟩
      intro ha
      exact hA a (chain'_transGen h ha)

lemma walk_tail_mem_nodes {G : DiGraph} (hW : WF G) :
    ∀ {p : List String}, IsWalk G p → ∀ i : Nat, i + 1 < p.length →
      p.getD (i + 1) default ∈ G.nodes := by
  intro p hp i hi
  have hedge : Edge G (p.getD i default) (p.getD (i + 1) default) := by
    have := List.chain'_iff_get.mp hp i (by omega)
    simpa [List.getD, List.getElem?_eq_getElem, List.get_eq_getElem,
      show i < p.length by omega, hi] using this
  exact (hW.1 _ hedge).2

lemma walk_cons_mem_nodes {G : DiGraph} (hW : WF G) {u : String} {p : List String}
    (h : IsWalk G (u :: p)) : ∀ x ∈ p, x ∈ G.nodes := by
  induction p generalizing u with
  | nil => intro x hx; cases hx
  | cons b t ih =>
      intro x hx
      have hub : Edge G u b := (List.chain'_cons.mp h).1
      have hbt : IsWalk G (b :: t) := (List.chain'_cons.mp h).2
      rcases List.mem_cons.mp hx with hx | hx
      · subst hx
        exact (hW.1 _ hub).2
      · exact ih hbt x hx

lemma nodup_length_le {l m : List String} (hn : l.Nodup) (hs : ∀ x ∈ l, x ∈ m) :
    l.length ≤ m.length := by
  calc l.length = l.toFinset.card := (List.toFinset_card_of_nodup hn).symm
    _ ≤ m.toFinset.card := by
        apply Finset.card_le_card
        intro x hx
        simp only [List.mem_toFinset] at hx ⊢
        exact hs x hx
    _ ≤ m.length := List.toFinset_card_le m

lemma walkBnd_all {G : DiGraph} (hA : Acyclic G) (hW : WF G) (u : String) :
    WalkBnd G u G.nodes.length := by
  intro p hp
  have hnd : (u :: p).Nodup := walk_nodup hA hp
  have hmem : ∀ x ∈ p, x ∈ G.nodes := walk_cons_mem_nodes hW hp
  by_cases hu : u ∈ G.nodes
  · have := nodup_length_le hnd (by
      intro x hx
      rcases List.mem_cons.mp hx with hx | hx
      · subst hx
        exact hu
      · exact hmem x hx)
    simpa using Nat.le_of_succ_le this
  · cases p with
    | nil => simp
    | cons b t =>
        exfalso
        exact hu (hW.1 _ (List.chain'_cons.mp hp).1).1

lemma walkBnd_child {G : DiGraph} (hA : Acyclic G) (hW : WF G) {u c : String}
    (he : (u, c) ∈ G.edges) : WalkBnd G c (G.nodes.length - 1) := by
  intro p hp
  have hup : IsWalk G (u :: c :: p) := List.chain'_cons.mpr ⟨he, hp⟩
  have hnd : (u :: c :: p).Nodup := walk_nodup hA hup
  have hmem : ∀ x ∈ u :: c :: p, x ∈ G.nodes := by
    intro x hx
    rcases List.mem_cons.mp hx with hx | hx
    · subst hx
      exact (hW.1 _ he).1
    · exact walk_cons_mem_nodes hW hup x hx
  have := nodup_length_le hnd hmem
  simp only [List.length_cons] at this
  omega

lemma walkBnd_anti {G : DiGraph} {u : String} {j k : Nat} (hjk : j ≤ k)
    (h : WalkBnd G u j) : WalkBnd G u k :=
  fun p hp => le_trans (h p hp) hjk

lemma walkBnd_succ_nil {G : DiGraph} {u : String} (h : WalkBnd G u 0) :
    successors G u = [] := by
  rcases hsucc : successors G u with _ | ⟨c, cs⟩
  · rfl
  · exfalso
    have hc : c ∈ successors G u := by
      rw [hsucc]
      exact List.mem_cons_self c cs
    have hwalk : IsWalk G (u :: [c]) :=
      List.chain'_cons.mpr ⟨mem_successors.mp hc, List.chain'_singleton c⟩
    have := h [c] hwalk
    simp at this

lemma walkBnd_succ_child {G : DiGraph} {u c : String} {j : Nat}
    (hc : c ∈ successors G u) (h : WalkBnd G u (j + 1)) : WalkBnd G c j := by
  intro p hp
  have hwalk : IsWalk G (u :: c :: p) :=
    List.chain'_cons.mpr ⟨mem_successors.mp hc, hp⟩
  have := h (c :: p) hwalk
  simpa using this

/-! Height lemmas. -/

lemma le_foldr_max {l : List Nat} {a : Nat} (ha : a ∈ l) : a ≤ l.foldr max 0 := by
  induction l with
  | nil => cases ha
  | cons b t ih =>
      rcases List.mem_cons.mp ha with h | h
      · subst h
        exact le_max_left _ _
      · exact le_trans (ih h) (le_max_right _ _)

lemma foldr_max_le {l : List Nat} {b : Nat} (h : ∀ a ∈ l, a ≤ b) : l.foldr max 0 ≤ b := by
  induction l with
  | nil => exact Nat.zero_le b
  | cons x t ih =>
      simp only [List.foldr_cons, max_le_iff]
      exact ⟨h x (List.mem_cons_self x t), ih (fun a ha => h a (List.mem_cons_of_mem x ha))⟩

lemma heightF_le (G : DiGraph) : ∀ k u, heightF G k u ≤ k := by
  intro k
  induction k with
  | zero => intro u; exact Nat.le_refl 0
  | succ k ih =>
      intro u
      apply foldr_max_le
      intro a ha
      obtain ⟨c, _, hc⟩ := List.mem_map.mp ha
      subst hc
      have := ih c
      omega

lemma heightF_succ_ge {G : DiGraph} {u c : String} (hc : c ∈ successors G u) (k : Nat) :
    heightF G k c + 1 ≤ heightF G (k + 1) u := by
  apply le_foldr_max
  exact List.mem_map.mpr ⟨c, hc, rfl⟩

lemma heightF_stable {G : DiGraph} :
    ∀ j, ∀ u, WalkBnd G u j → ∀ k, j ≤ k → heightF G k u = heightF G j u := by
  intro j
  induction j with
  | zero =>
      intro u hu k _
      have hnil : successors G u = [] := walkBnd_succ_nil hu
      cases k with
      | zero => rfl
      | succ k =>
          show ((successors G u).map _).foldr max 0 = heightF G 0 u
          rw [hnil]
          rfl
  | succ j ih =>
      intro u hu k hk
      cases k with
      | zero => omega
      | succ k =>
          show ((successors G u).map (fun c => heightF G k c + 1)).foldr max 0 =
            ((successors G u).map (fun c => heightF G j c + 1)).foldr max 0
          have hmap : (successors G u).map (fun c => heightF G k c + 1) =
              (successors G u).map (fun c => heightF G j c + 1) := by
            apply List.map_congr_left
            intro c hc
            rw [ih c (walkBnd_succ_child hc hu) k (by omega)]
          rw [hmap]

lemma height_le (G : DiGraph) (u : String) : height G u ≤ G.nodes.length :=
  heightF_le G G.nodes.length u

lemma height_lt_of_edge {G : DiGraph} (hA : Acyclic G) (hW : WF G) {u c : String}
    (he : (u, c) ∈ G.edges) : height G c < height G u := by
  have hu : u ∈ G.nodes := (hW.1 _ he).1
  rcases hn : G.nodes.length with _ | m
  · exfalso
    rw [List.length_eq_zero] at hn
    rw [hn] at hu
    cases hu
  · have hcs : c ∈ successors G u := mem_successors.mpr he
    have hbnd : WalkBnd G c m := by
      have := walkBnd_child hA hW he
      rwa [hn] at this
    have hstable : heightF G (m + 1) c = heightF G m c :=
      heightF_stable m c hbnd (m + 1) (by omega)
    have hge : heightF G m c + 1 ≤ heightF G (m + 1) u := heightF_succ_ge hcs m
    unfold height
    rw [hn, hstable]
    omega

/-! Measure lemmas. -/

lemma measureL_nil (G : DiGraph) : measureL G [] = 0 := rfl

lemma measureL_cons (G : DiGraph) (c : String) (l : List String) :
    measureL G (c :: l) = (G.edges.length + 1) ^ height G c + measureL G l := by
  unfold measureL
  simp

lemma measureL_append (G : DiGraph) (l m : List String) :
    measureL G (l ++ m) = measureL G l + measureL G m := by
  unfold measureL
  simp

lemma measureL_reverse (G : DiGraph) (l : List String) :
    measureL G l.reverse = measureL G l := by
  unfold measureL
  rw [List.map_reverse, List.sum_reverse]

lemma measureL_pos {G : DiGraph} {c : String} {l : List String} :
    0 < measureL G (c :: l) := by
  rw [measureL_cons]
  have : 0 < (G.edges.length + 1) ^ height G c := pow_pos (by omega) _
  omega

lemma successors_length_le (G : DiGraph) (u : String) :
    (successors G u).length ≤ G.edges.length := by
  unfold successors
  rw [List.length_map]
  exact List.length_filter_le _ _

lemma measureL_successors_lt {G : DiGraph} (hA : Acyclic G) (hW : WF G) (u : String) :
    measureL G (successors G u) < (G.edges.length + 1) ^ height G u := by
  rcases hsucc : successors G u with _ | ⟨c, cs⟩
  · rw [measureL_nil]
    exact pow_pos (by omega) _
  · rw [← hsucc]
    have hpos : 1 ≤ height G u := by
      have hc : c ∈ successors G u := by
        rw [hsucc]
        exact List.mem_cons_self c cs
      have := height_lt_of_edge hA hW (mem_successors.mp hc)
      omega
    have hbound : ∀ x ∈ (successors G u).map
        (fun c => (G.edges.length + 1) ^ height G c),
        x ≤ (G.edges.length + 1) ^ (height G u - 1) := by
      intro x hx
      obtain ⟨d, hd, hdx⟩ := List.mem_map.mp hx
      subst hdx
      apply Nat.pow_le_pow_right (by omega)
      have := height_lt_of_edge hA hW (mem_successors.mp hd)
      omega
    calc measureL G (successors G u)
        ≤ ((successors G u).map
            (fun c => (G.edges.length + 1) ^ height G c)).length •
            ((G.edges.length + 1) ^ (height G u - 1)) :=
          List.sum_le_card_nsmul _ _ hbound
      _ = (successors G u).length * (G.edges.length + 1) ^ (height G u - 1) := by
          rw [List.length_map, smul_eq_mul]
      _ ≤ G.edges.length * (G.edges.length + 1) ^ (height G u - 1) :=
          Nat.mul_le_mul_right _ (successors_length_le G u)
      _ < (G.edges.length + 1) * (G.edges.length + 1) ^ (height G u - 1) := by
          have hp : 0 < (G.edges.length + 1) ^ (height G u - 1) := pow_pos (by omega) _
          exact (Nat.mul_lt_mul_right hp).mpr (by omega)
      _ = (G.edges.length + 1) ^ (height G u - 1 + 1) := by
          rw [pow_succ]
          ring
      _ = (G.edges.length + 1) ^ height G u := by
          congr 1
          omega

/-! The descendants DFS: reference tree and simulation of the stack machine. -/

lemma descTreeF_stable {G : DiGraph} :
    ∀ j, ∀ u, WalkBnd G u j → ∀ k, j ≤ k → descTreeF G k u = descTreeF G j u := by
  intro j
  induction j with
  | zero =>
      intro u hu k _
      have hnil : successors G u = [] := walkBnd_succ_nil hu
      cases k with
      | zero => rfl
      | succ k =>
          show u :: ((successors G u).reverse.map _).flatten = descTreeF G 0 u
          rw [hnil]
          rfl
  | succ j ih =>
      intro u hu k hk
      cases k with
      | zero => omega
      | succ k =>
          show u :: ((successors G u).reverse.map (descTreeF G k)).flatten =
            u :: ((successors G u).reverse.map (descTreeF G j)).flatten
          have hmap : (successors G u).reverse.map (descTreeF G k) =
              (successors G u).reverse.map (descTreeF G j) := by
            apply List.map_congr_left
            intro c hc
            exact ih c (walkBnd_succ_child (List.mem_reverse.mp hc) hu) k (by omega)
          rw [hmap]

lemma descTree_unfold {G : DiGraph} (hA : Acyclic G) (hW : WF G) (u : String) :
    descTree G u = u :: ((successors G u).reverse.map (descTree G)).flatten := by
  have hbnd : WalkBnd G u G.nodes.length := walkBnd_all hA hW u
  have h1 : descTreeF G (G.nodes.length + 1) u = descTreeF G G.nodes.length u :=
    descTreeF_stable _ u hbnd _ (by omega)
  unfold descTree
  rw [← h1]
  rfl

lemma descTreeF_sound {G : DiGraph} :
    ∀ k u x, x ∈ descTreeF G k u → ReachesF G u x := by
  intro k
  induction k with
  | zero =>
      intro u x hx
      rcases List.mem_singleton.mp hx with h
      subst h
      exact Relation.ReflTransGen.refl
  | succ k ih =>
      intro u x hx
      rcases List.mem_cons.mp hx with h | h
      · subst h
        exact Relation.ReflTransGen.refl
      · obtain ⟨l, hl, hxl⟩ := List.mem_flatten.mp h
        obtain ⟨c, hc, hcl⟩ := List.mem_map.mp hl
        subst hcl
        have hedge : Edge G u c := mem_successors.mp (List.mem_reverse.mp hc)
        exact Relation.ReflTransGen.head hedge (ih c x hxl)

lemma descTree_complete {G : DiGraph} (hA : Acyclic G) (hW : WF G) {u x : String}
    (h : ReachesF G u x) : x ∈ descTree G u := by
  induction h using Relation.ReflTransGen.head_induction_on with
  | refl =>
      rw [descTree_unfold hA hW]
      exact List.mem_cons_self _ _
  | head hbc _ ih =>
      rename_i b c _
      rw [descTree_unfold hA hW]
      apply List.mem_cons_of_mem
      apply List.mem_flatten.mpr
      refine ⟨descTree G c, ?_, ih⟩
      apply List.mem_map.mpr
      exact ⟨c, List.mem_reverse.mpr (mem_successors.mpr hbc), rfl⟩

lemma mem_descTree {G : DiGraph} (hA : Acyclic G) (hW : WF G) (u x : String) :
    x ∈ descTree G u ↔ ReachesF G u x :=
  ⟨descTreeF_sound _ u x, descTree_complete hA hW⟩

lemma descLoop_eq {G : DiGraph} (hA : Acyclic G) (hW : WF G) :
    ∀ fuel stk acc, measureL G stk ≤ fuel →
      descLoop G fuel (stk, acc) = ([], acc ++ (stk.map (descTree G)).flatten) := by
  intro fuel
  induction fuel with
  | zero =>
      intro stk acc hm
      cases stk with
      | nil => simp [descLoop]
      | cons c rest =>
          exfalso
          have := @measureL_pos G c rest
          omega
  | succ fuel ih =>
      intro stk acc hm
      cases stk with
      | nil => simp [descLoop]
      | cons c rest =>
          show descLoop G fuel ((successors G c).reverse ++ rest, acc ++ [c]) = _
          have hmeas : measureL G ((successors G c).reverse ++ rest) ≤ fuel := by
            rw [measureL_append, measureL_reverse]
            have h1 : measureL G (successors G c) <
                (G.edges.length + 1) ^ height G c := measureL_successors_lt hA hW c
            rw [measureL_cons] at hm
            omega
          rw [ih _ _ hmeas]
          rw [List.map_append, List.flatten_append, List.map_reverse,
            List.map_cons, List.flatten_cons]
          rw [descTree_unfold hA hW c]
          simp [List.map_reverse]

lemma findDescendants_eq {G : DiGraph} (hA : Acyclic G) (hW : WF G) (v : String) :
    findDescendants G v = descTree G v := by
  unfold findDescendants
  rw [descLoop_eq hA hW (defaultFuel G) [v] []]
  · simp
  · show measureL G [v] ≤ defaultFuel G
    unfold measureL defaultFuel
    simp only [List.map_cons, List.map_nil, List.sum_cons, List.sum_nil, Nat.add_zero]
    exact Nat.pow_le_pow_right (by omega) (height_le G v)

lemma mem_findDescendants {G : DiGraph} (hA : Acyclic G) (hW : WF G) (v x : String) :
    x ∈ findDescendants G v ↔ ReachesF G v x := by
  rw [findDescendants_eq hA hW]
  exact mem_descTree hA hW v x

lemma descTerminated_of_acyclic {G : DiGraph} (hA : Acyclic G) (hW : WF G)
    (v : String) : descTerminated G v := by
  unfold descTerminated
  rw [descLoop_eq hA hW (defaultFuel G) [v] []]
  · show measureL G [v] ≤ defaultFuel G
    unfold measureL defaultFuel
    simp only [List.map_cons, List.map_nil, List.sum_cons, List.sum_nil, Nat.add_zero]
    exact Nat.pow_le_pow_right (by omega) (height_le G v)

/-! The backward DFS of isAncestor, analysed through the reversed graph. -/

lemma measureL_single_rev_le (G : DiGraph) (v : String) :
    measureL (reverseG G) [v] ≤ defaultFuel G := by
  unfold measureL defaultFuel
  simp only [List.map_cons, List.map_nil, List.sum_cons, List.sum_nil, Nat.add_zero]
  rw [reverseG_edges_length]
  have h1 : height (reverseG G) v ≤ (reverseG G).nodes.length :=
    height_le (reverseG G) v
  rw [reverseG_nodes] at h1
  exact Nat.pow_le_pow_right (by omega) h1

lemma ancInner_eq {G : DiGraph} (hA : Acyclic G) (hW : WF G) (X : String) :
    ∀ fuel stk, measureL (reverseG G) stk ≤ fuel →
      ((ancInner G X fuel stk).1 = true ↔ ∃ c ∈ stk, ReachesF G X c) ∧
      ((ancInner G X fuel stk).1 = false → (ancInner G X fuel stk).2 = []) := by
  have hA' : Acyclic (reverseG G) := reverseG_acyclic hA
  have hW' : WF (reverseG G) := reverseG_wf hW
  intro fuel
  induction fuel with
  | zero =>
      intro stk hm
      cases stk with
      | nil =>
          refine ⟨?_, fun _ => rfl⟩
          simp [ancInner]
      | cons c rest =>
          exfalso
          have := @measureL_pos (reverseG G) c rest
          omega
  | succ fuel ih =>
      intro stk hm
      cases stk with
      | nil =>
          refine ⟨?_, fun _ => rfl⟩
          simp [ancInner]
      | cons cur rest =>
          by_cases hc : cur = X
          · have hstep : ancInner G X (fuel + 1) (cur :: rest) = (true, rest) := by
              show (if cur = X then (true, rest) else _) = _
              rw [if_pos hc]
            rw [hstep]
            refine ⟨?_, by simp⟩
            simp only [true_iff]
            exact ⟨cur, List.mem_cons_self cur rest, hc ▸ Relation.ReflTransGen.refl⟩
          · have hstep : ancInner G X (fuel + 1) (cur :: rest) =
                ancInner G X fuel ((predecessors G cur).reverse ++ rest) := by
              show (if cur = X then (true, rest) else _) = _
              rw [if_neg hc]
            have hmeas : measureL (reverseG G) ((predecessors G cur).reverse ++ rest) ≤
                fuel := by
              rw [measureL_append, measureL_reverse, predecessors_eq_reverse]
              have h1 : measureL (reverseG G) (successors (reverseG G) cur) <
                  ((reverseG G).edges.length + 1) ^ height (reverseG G) cur :=
                measureL_successors_lt hA' hW' cur
              rw [measureL_cons] at hm
              rw [reverseG_edges_length] at h1 hm
              omega
            obtain ⟨hiff, hterm⟩ := ih _ hmeas
            rw [hstep]
            refine ⟨hiff.trans ?_, hterm⟩
            constructor
            · rintro ⟨d, hd, hR⟩
              rcases List.mem_append.mp hd with hd | hd
              · refine ⟨cur, List.mem_cons_self cur rest, ?_⟩
                have hedge : Edge G d cur :=
                  mem_predecessors.mp (List.mem_reverse.mp hd)
                exact Relation.ReflTransGen.tail hR hedge
              · exact ⟨d, List.mem_cons_of_mem cur hd, hR⟩
            · rintro ⟨d, hd, hR⟩
              rcases List.mem_cons.mp hd with hd | hd
              · subst hd
                rcases Relation.ReflTransGen.cases_tail hR with h | ⟨b, hXb, hbd⟩
                · exact absurd h hc
                · refine ⟨b, List.mem_append.mpr (Or.inl ?_), hXb⟩
                  exact List.mem_reverse.mpr (mem_predecessors.mpr hbd)
              · exact ⟨d, List.mem_append.mpr (Or.inr hd), hR⟩

lemma foldl_or_any {α : Type} (g : α → Bool) :
    ∀ (l : List α) (b : Bool), l.foldl (fun f v => f || g v) b = (b || l.any g) := by
  intro l
  induction l with
  | nil => intro b; simp
  | cons x t ih =>
      intro b
      show t.foldl (fun f v => f || g v) (b || g x) = _
      rw [ih (b || g x)]
      simp [Bool.or_assoc]

lemma isAncestor_iff {G : DiGraph} (hA : Acyclic G) (hW : WF G) (X : String)
    (V : List String) : isAncestor G X V = true ↔ ∃ v ∈ V, ReachesF G X v := by
  unfold isAncestor
  rw [foldl_or_any]
  simp only [Bool.false_or, List.any_eq_true]
  constructor
  · rintro ⟨v, hv, hval⟩
    refine ⟨v, hv, ?_⟩
    have := (ancInner_eq hA hW X (defaultFuel G) [v] (measureL_single_rev_le G v)).1
    obtain ⟨c, hc, hR⟩ := this.mp hval
    rcases List.mem_singleton.mp hc with h
    subst h
    exact hR
  · rintro ⟨v, hv, hR⟩
    refine ⟨v, hv, ?_⟩
    exact (ancInner_eq hA hW X (defaultFuel G) [v] (measureL_single_rev_le G v)).1.mpr
      ⟨v, List.mem_singleton.mpr rfl, hR⟩

lemma ancTerminated_of_acyclic {G : DiGraph} (hA : Acyclic G) (hW : WF G)
    (X v : String) : ancTerminated G X v := by
  unfold ancTerminated
  rcases hval : (ancInner G X (defaultFuel G) [v]).1 with _ | _
  · right
    exact (ancInner_eq hA hW X (defaultFuel G) [v] (measureL_single_rev_le G v)).2 hval
  · left
    rfl

/-! Truncation and stack-coherence lemmas for the path DFS. -/

lemma truncate_none (ps : List String) : truncate ps none = [] := by
  induction ps with
  | nil => rfl
  | cons x xs ih =>
      show (if some x = none then x :: xs else truncate xs none) = []
      rw [if_neg (by simp)]
      exact ih

lemma truncate_suffix (ps : List String) (p : Option String) :
    truncate ps p <:+ ps := by
  induction ps with
  | nil => exact List.suffix_refl []
  | cons x xs ih =>
      show (if some x = p then x :: xs else truncate xs p) <:+ x :: xs
      by_cases h : some x = p
      · rw [if_pos h]
      · rw [if_neg h]
        exact ih.trans (List.suffix_cons x xs)

lemma truncate_mem_head {ps : List String} {u : String} (hu : u ∈ ps) :
    ∃ t, truncate ps (some u) = u :: t := by
  induction ps with
  | nil => cases hu
  | cons x xs ih =>
      by_cases h : x = u
      · subst h
        refine ⟨xs, ?_⟩
        show (if some x = some x then x :: xs else truncate xs (some x)) = x :: xs
        rw [if_pos rfl]
      · have hxs : u ∈ xs := by
          rcases List.mem_cons.mp hu with h1 | h1
          · exact absurd h1.symm h
          · exact h1
        obtain ⟨t, ht⟩ := ih hxs
        refine ⟨t, ?_⟩
        show (if some x = some u then x :: xs else truncate xs (some u)) = u :: t
        rw [if_neg (by simpa using h), ht]

lemma truncate_head_self (c : String) (t : List String) :
    truncate (c :: t) (some c) = c :: t := by
  show (if some c = some c then c :: t else truncate t (some c)) = c :: t
  rw [if_pos rfl]

lemma truncate_absorb {s ps : List String} {u : String} (hs : s <:+ ps)
    (hnd : ps.Nodup) (hu : u ∈ s) :
    truncate ps (some u) = truncate s (some u) := by
  obtain ⟨t, ht⟩ := hs
  subst ht
  induction t with
  | nil => rfl
  | cons x xs ih =>
      have hnd' : (xs ++ s).Nodup := (List.nodup_cons.mp hnd).2
      have hx : x ∉ xs ++ s := (List.nodup_cons.mp hnd).1
      have hxu : x ≠ u := by
        intro h
        subst h
        exact hx (List.mem_append.mpr (Or.inr hu))
      show (if some x = some u then x :: (xs ++ s) else truncate (xs ++ s) (some u)) = _
      rw [if_neg (by simpa using hxu)]
      exact ih hnd'

lemma revWalk_nodup {G : DiGraph} (hA : Acyclic G) {ps : List String}
    (h : RevWalk G ps) : ps.Nodup := by
  have hrev : IsWalk G ps.reverse := by
    unfold IsWalk
    rw [List.chain'_reverse]
    exact h
  have := walk_nodup hA hrev
  exact List.nodup_reverse.mp this

lemma revWalk_suffix {G : DiGraph} {s ps : List String} (hs : s <:+ ps)
    (h : RevWalk G ps) : RevWalk G s := by
  obtain ⟨t, ht⟩ := hs
  subst ht
  exact (List.chain'_append.mp h).2.1

lemma entryOk_mono {G : DiGraph} {s t : List String}
    {e : String × Option String} (he : EntryOk G s e) (hst : s <:+ t) :
    EntryOk G t e := by
  rcases e with ⟨c, _ | u⟩
  · exact trivial
  · exact ⟨he.1, hst.subset he.2⟩

lemma stkOk_mono {G : DiGraph} :
    ∀ {rest : List (String × Option String)} {s t : List String},
      StkOk G s rest → s <:+ t → t.Nodup → StkOk G t rest := by
  intro rest
  induction rest with
  | nil => intro s t _ _ _; exact trivial
  | cons e rest ih =>
      intro s t h hst hnd
      rcases e with ⟨c, p⟩
      obtain ⟨he, hrest⟩ := h
      refine ⟨entryOk_mono he hst, ?_⟩
      rcases p with _ | u
      · rw [truncate_none]
        rwa [truncate_none] at hrest
      · have habs : truncate t (some u) = truncate s (some u) :=
          truncate_absorb hst hnd he.2
        show StkOk G (truncate t (some u)) rest
        rw [habs]
        exact hrest

lemma stkSem_congr {G : DiGraph} {Y : String} :
    ∀ {rest : List (String × Option String)} {s t : List String},
      StkOk G s rest → s <:+ t → t.Nodup → stkSem G Y t rest = stkSem G Y s rest := by
  intro rest
  induction rest with
  | nil => intro s t _ _ _; rfl
  | cons e rest ih =>
      intro s t h hst hnd
      rcases e with ⟨c, p⟩
      obtain ⟨he, hrest⟩ := h
      show pcpTree G Y (truncate t p) c ++ stkSem G Y (truncate t p) rest =
        pcpTree G Y (truncate s p) c ++ stkSem G Y (truncate s p) rest
      rcases p with _ | u
      · rw [truncate_none, truncate_none]
      · have habs : truncate t (some u) = truncate s (some u) :=
          truncate_absorb hst hnd he.2
        rw [habs]

lemma trAfter_nil (ps : List String) : trAfter ps [] = ps := rfl

lemma trAfter_cons (ps : List String) (e : String × Option String)
    (l : List (String × Option String)) :
    trAfter ps (e :: l) = trAfter (truncate ps e.2) l := rfl

lemma stkSem_append {G : DiGraph} {Y : String} :
    ∀ (A B : List (String × Option String)) (s : List String),
      stkSem G Y s (A ++ B) = stkSem G Y s A ++ stkSem G Y (trAfter s A) B := by
  intro A
  induction A with
  | nil => intro B s; rfl
  | cons e A ih =>
      intro B s
      show pcpTree G Y (truncate s e.2) e.1 ++ stkSem G Y (truncate s e.2) (A ++ B) = _
      rw [ih B (truncate s e.2)]
      simp [trAfter_cons, stkSem]

lemma stkOk_append {G : DiGraph} :
    ∀ {A B : List (String × Option String)} {s : List String},
      StkOk G s A → StkOk G (trAfter s A) B → StkOk G s (A ++ B) := by
  intro A
  induction A with
  | nil => intro B s _ hB; exact hB
  | cons e A ih =>
      intro B s hA hB
      obtain ⟨he, hA'⟩ := hA
      exact ⟨he, ih hA' hB⟩

lemma trAfter_uniform {s : List String} :
    ∀ {A : List (String × Option String)},
      (∀ e ∈ A, truncate s e.2 = s) → trAfter s A = s := by
  intro A
  induction A with
  | nil => intro _; rfl
  | cons e A ih =>
      intro h
      rw [trAfter_cons, h e (List.mem_cons_self e A)]
      exact ih (fun x hx => h x (List.mem_cons_of_mem e hx))

lemma stkOk_uniform {G : DiGraph} {s : List String} :
    ∀ {A : List (String × Option String)},
      (∀ e ∈ A, EntryOk G s e ∧ truncate s e.2 = s) → StkOk G s A := by
  intro A
  induction A with
  | nil => intro _; exact trivial
  | cons e A ih =>
      intro h
      obtain ⟨he, htr⟩ := h e (List.mem_cons_self e A)
      refine ⟨he, ?_⟩
      rw [htr]
      exact ih (fun x hx => h x (List.mem_cons_of_mem e hx))

lemma stkSem_uniform {G : DiGraph} {Y : String} {s : List String} :
    ∀ {A : List (String × Option String)},
      (∀ e ∈ A, truncate s e.2 = s) →
      stkSem G Y s A = (A.map (fun e => pcpTree G Y s e.1)).flatten := by
  intro A
  induction A with
  | nil => intro _; rfl
  | cons e A ih =>
      intro h
      show pcpTree G Y (truncate s e.2) e.1 ++ stkSem G Y (truncate s e.2) A = _
      rw [h e (List.mem_cons_self e A)]
      rw [ih (fun x hx => h x (List.mem_cons_of_mem e hx))]
      simp

/-! Reference tree for the path DFS. -/

lemma pcpTreeF_stable {G : DiGraph} {Y : String} :
    ∀ j, ∀ u, WalkBnd G u j → ∀ pref k, j ≤ k →
      pcpTreeF G Y k pref u = pcpTreeF G Y j pref u := by
  intro j
  induction j with
  | zero =>
      intro u hu pref k _
      have hnil : successors G u = [] := walkBnd_succ_nil hu
      cases k with
      | zero => rfl
      | succ k =>
          show (if u = Y then [(u :: pref).reverse] else []) ++
              ((successors G u).reverse.map _).flatten = pcpTreeF G Y 0 pref u
          rw [hnil]
          show (if u = Y then [(u :: pref).reverse] else []) ++ [] = _
          rw [List.append_nil]
          rfl
  | succ j ih =>
      intro u hu pref k hk
      cases k with
      | zero => omega
      | succ k =>
          show (if u = Y then [(u :: pref).reverse] else []) ++
              ((successors G u).reverse.map (fun c => pcpTreeF G Y k (u :: pref) c)).flatten =
            (if u = Y then [(u :: pref).reverse] else []) ++
              ((successors G u).reverse.map (fun c => pcpTreeF G Y j (u :: pref) c)).flatten
          have hmap : (successors G u).reverse.map (fun c => pcpTreeF G Y k (u :: pref) c) =
              (successors G u).reverse.map (fun c => pcpTreeF G Y j (u :: pref) c) := by
            apply List.map_congr_left
            intro c hc
            exact ih c (walkBnd_succ_child (List.mem_reverse.mp hc) hu) (u :: pref) k
              (by omega)
          rw [hmap]

lemma pcpTree_unfold {G : DiGraph} (hA : Acyclic G) (hW : WF G) (Y : String)
    (pref : List String) (u : String) :
    pcpTree G Y pref u = (if u = Y then [(u :: pref).reverse] else []) ++
      ((successors G u).reverse.map (fun c => pcpTree G Y (u :: pref) c)).flatten := by
  have hbnd : WalkBnd G u G.nodes.length := walkBnd_all hA hW u
  have h1 : pcpTreeF G Y (G.nodes.length + 1) pref u = pcpTreeF G Y G.nodes.length pref u :=
    pcpTreeF_stable _ u hbnd pref _ (by omega)
  unfold pcpTree
  rw [← h1]
  rfl

/-! Simulation of the path-DFS stack machine. -/

lemma measureP_cons (G : DiGraph) (e : String × Option String)
    (stk : List (String × Option String)) :
    measureP G (e :: stk) = (G.edges.length + 1) ^ height G e.1 + measureP G stk := by
  unfold measureP
  rw [List.map_cons, measureL_cons]

lemma measureP_children (G : DiGraph) (c : String)
    (stk : List (String × Option String)) :
    measureP G (((successors G c).map (fun child => (child, some c))).reverse ++ stk) =
      measureL G (successors G c) + measureP G stk := by
  unfold measureP
  rw [List.map_append, measureL_append]
  congr 1
  rw [List.map_reverse, measureL_reverse, List.map_map]
  have : ((fun (e : String × Option String) => e.1) ∘ fun child => (child, some c)) =
      fun (x : String) => x := rfl
  rw [this, List.map_id']

lemma pcpLoop_eq {G : DiGraph} (hA : Acyclic G) (hW : WF G) (Y : String) :
    ∀ fuel stk ps paths, measureP G stk ≤ fuel → RevWalk G ps → StkOk G ps stk →
      ∃ psF, pcpLoop G Y fuel (stk, ps, paths) =
        ([], psF, paths ++ stkSem G Y ps stk) := by
  intro fuel
  induction fuel with
  | zero =>
      intro stk ps paths hm _ _
      cases stk with
      | nil => exact ⟨ps, by simp [pcpLoop, stkSem]⟩
      | cons e rest =>
          exfalso
          rcases e with ⟨c, p⟩
          rw [measureP_cons] at hm
          have : 0 < (G.edges.length + 1) ^ height G (c, p).1 := pow_pos (by omega) _
          omega
  | succ fuel ih =>
      intro stk ps paths hm hrw hok
      cases stk with
      | nil => exact ⟨ps, by simp [pcpLoop, stkSem]⟩
      | cons e rest =>
          rcases e with ⟨c, p⟩
          obtain ⟨hentry, hrest⟩ := hok
          have hstep : pcpLoop G Y (fuel + 1) ((c, p) :: rest, ps, paths) =
              pcpLoop G Y fuel
                (((successors G c).map (fun child => (child, some c))).reverse ++ rest,
                 c :: truncate ps p,
                 if c = Y then paths ++ [(c :: truncate ps p).reverse] else paths) := rfl
          have hps' : RevWalk G (c :: truncate ps p) := by
            rcases p with _ | u
            · rw [truncate_none]
              exact List.chain'_singleton c
            · obtain ⟨t, ht⟩ := truncate_mem_head hentry.2
              rw [ht]
              refine List.chain'_cons.mpr ⟨hentry.1, ?_⟩
              rw [← ht]
              exact revWalk_suffix (truncate_suffix ps (some u)) hrw
          have hnd' : (c :: truncate ps p).Nodup := revWalk_nodup hA hps'
          have hsfx : truncate ps p <:+ c :: truncate ps p :=
            List.suffix_cons c (truncate ps p)
          have hchildmem : ∀ e ∈ ((successors G c).map
              (fun child => (child, some c))).reverse,
              ∃ child ∈ successors G c, e = (child, some c) := by
            intro e he
            obtain ⟨child, hc1, hc2⟩ := List.mem_map.mp (List.mem_reverse.mp he)
            exact ⟨child, hc1, hc2.symm⟩
          have hokch : StkOk G (c :: truncate ps p)
              (((successors G c).map (fun child => (child, some c))).reverse) := by
            apply stkOk_uniform
            intro e he
            obtain ⟨child, hch, hee⟩ := hchildmem e he
            subst hee
            exact ⟨⟨mem_successors.mp hch, List.mem_cons_self _ _⟩,
              truncate_head_self c (truncate ps p)⟩
          have htrch : trAfter (c :: truncate ps p)
              (((successors G c).map (fun child => (child, some c))).reverse) =
              c :: truncate ps p := by
            apply trAfter_uniform
            intro e he
            obtain ⟨child, _, hee⟩ := hchildmem e he
            subst hee
            exact truncate_head_self c (truncate ps p)
          have hoknew : StkOk G (c :: truncate ps p)
              ((((successors G c).map (fun child => (child, some c))).reverse) ++ rest) := by
            apply stkOk_append hokch
            rw [htrch]
            exact stkOk_mono hrest hsfx hnd'
          have hmeas : measureP G
              ((((successors G c).map (fun child => (child, some c))).reverse) ++ rest) ≤
              fuel := by
            rw [measureP_children]
            rw [measureP_cons] at hm
            have := measureL_successors_lt hA hW c
            simp only at hm this ⊢
            omega
          obtain ⟨psF, hrun⟩ := ih _ (c :: truncate ps p)
            (if c = Y then paths ++ [(c :: truncate ps p).reverse] else paths)
            hmeas hps' hoknew
          refine ⟨psF, ?_⟩
          rw [hstep, hrun]
          congr 1
          congr 1
          have hsem : stkSem G Y (c :: truncate ps p)
              ((((successors G c).map (fun child => (child, some c))).reverse) ++ rest) =
              ((successors G c).reverse.map
                (fun x => pcpTree G Y (c :: truncate ps p) x)).flatten ++
              stkSem G Y (truncate ps p) rest := by
            rw [stkSem_append, htrch]
            congr 1
            · rw [stkSem_uniform (fun e he => by
                obtain ⟨child, _, hee⟩ := hchildmem e he
                subst hee
                exact truncate_head_self c (truncate ps p))]
              congr 1
              rw [List.map_reverse, List.map_reverse, List.map_map]
              rfl
            · exact stkSem_congr hrest hsfx hnd'
          rw [hsem]
          show (if c = Y then paths ++ [(c :: truncate ps p).reverse] else paths) ++ _ =
            paths ++ (pcpTree G Y (truncate ps p) c ++ stkSem G Y (truncate ps p) rest)
          rw [pcpTree_unfold hA hW Y (truncate ps p) c]
          by_cases hcY : c = Y
          · rw [if_pos hcY, if_pos hcY]
            simp only [List.append_assoc]
          · rw [if_neg hcY, if_neg hcY]
            simp only [List.nil_append, List.append_assoc]

lemma findProperCausalPath_eq {G : DiGraph} (hA : Acyclic G) (hW : WF G)
    (X Y : String) :
    findProperCausalPath G X Y = (pcpTree G Y [] X).map toEdgePath := by
  unfold findProperCausalPath
  have hmeas : measureP G [(X, none)] ≤ defaultFuel G := by
    rw [measureP_cons]
    show (G.edges.length + 1) ^ height G X + measureP G [] ≤ defaultFuel G
    have : measureP G ([] : List (String × Option String)) = 0 := rfl
    rw [this]
    unfold defaultFuel
    have := Nat.pow_le_pow_right (show 1 ≤ G.edges.length + 1 by omega) (height_le G X)
    omega
  have hok : StkOk G [] [(X, none)] := ⟨trivial, trivial⟩
  obtain ⟨psF, hrun⟩ := pcpLoop_eq hA hW Y (defaultFuel G) [(X, none)] [] [] hmeas
    List.chain'_nil hok
  rw [hrun]
  show (([] : List (List String)) ++ stkSem G Y [] [(X, none)]).map toEdgePath = _
  have : stkSem G Y [] [(X, none)] = pcpTree G Y [] X := by
    show pcpTree G Y (truncate [] none) X ++ stkSem G Y (truncate [] none) [] = _
    rw [truncate_none]
    show pcpTree G Y [] X ++ [] = _
    rw [List.append_nil]
  rw [this]
  rfl

lemma pcpTerminated_of_acyclic {G : DiGraph} (hA : Acyclic G) (hW : WF G)
    (X Y : String) : pcpTerminated G X Y := by
  unfold pcpTerminated
  have hmeas : measureP G [(X, none)] ≤ defaultFuel G := by
    rw [measureP_cons]
    show (G.edges.length + 1) ^ height G X + measureP G [] ≤ defaultFuel G
    have : measureP G ([] : List (String × Option String)) = 0 := rfl
    rw [this]
    unfold defaultFuel
    have := Nat.pow_le_pow_right (show 1 ≤ G.edges.length + 1 by omega) (height_le G X)
    omega
  obtain ⟨psF, hrun⟩ := pcpLoop_eq hA hW Y (defaultFuel G) [(X, none)] [] [] hmeas
    List.chain'_nil ⟨trivial, trivial⟩
  rw [hrun]

/-! Semantic characterization of the emitted paths. -/

lemma pcpTreeF_sound {G : DiGraph} {Y : String} :
    ∀ k pref u q, q ∈ pcpTreeF G Y k pref u →
      ∃ w, IsWalk G w ∧ w.head? = some u ∧ w.getLast? = some Y ∧
        q = pref.reverse ++ w := by
  intro k
  induction k with
  | zero =>
      intro pref u q hq
      by_cases hu : u = Y
      · rw [pcpTreeF, if_pos hu] at hq
        rcases List.mem_singleton.mp hq with h
        subst h
        refine ⟨[u], List.chain'_singleton u, rfl, by rw [hu]; rfl, ?_⟩
        rw [List.reverse_cons]
      · rw [pcpTreeF, if_neg hu] at hq
        cases hq
  | succ k ih =>
      intro pref u q hq
      rcases List.mem_append.mp hq with hq | hq
      · by_cases hu : u = Y
        · rw [if_pos hu] at hq
          rcases List.mem_singleton.mp hq with h
          subst h
          refine ⟨[u], List.chain'_singleton u, rfl, by rw [hu]; rfl, ?_⟩
          rw [List.reverse_cons]
        · rw [if_neg hu] at hq
          cases hq
      · obtain ⟨l, hl, hql⟩ := List.mem_flatten.mp hq
        obtain ⟨c, hc, hcl⟩ := List.mem_map.mp hl
        subst hcl
        obtain ⟨w, hw, hwh, hwl, hqe⟩ := ih (u :: pref) c q hql
        cases w with
        | nil => cases hwh
        | cons c0 wt =>
            have hc0 : c0 = c := by
              simpa using hwh
            subst hc0
            refine ⟨u :: c0 :: wt, ?_, rfl, ?_, ?_⟩
            · exact List.chain'_cons.mpr
                ⟨mem_successors.mp (List.mem_reverse.mp hc), hw⟩
            · rwa [List.getLast?_cons_cons]
            · rw [hqe, List.reverse_cons, List.append_assoc]
              rfl

lemma pcpTreeF_complete {G : DiGraph} {Y : String} :
    ∀ k pref u w, IsWalk G w → w.head? = some u → w.getLast? = some Y →
      w.length ≤ k + 1 → pref.reverse ++ w ∈ pcpTreeF G Y k pref u := by
  intro k
  induction k with
  | zero =>
      intro pref u w hw hwh hwl hlen
      cases w with
      | nil => cases hwh
      | cons a t =>
          cases t with
          | nil =>
              have ha : a = u := by simpa using hwh
              have haY : a = Y := by simpa using hwl
              subst ha
              rw [pcpTreeF, if_pos haY]
              apply List.mem_singleton.mpr
              rw [List.reverse_cons]
          | cons b t2 =>
              simp only [List.length_cons] at hlen
              omega
  | succ k ih =>
      intro pref u w hw hwh hwl hlen
      cases w with
      | nil => cases hwh
      | cons a t =>
          have ha : a = u := by simpa using hwh
          subst ha
          cases t with
          | nil =>
              have haY : a = Y := by simpa using hwl
              apply List.mem_append.mpr
              left
              rw [if_pos haY]
              apply List.mem_singleton.mpr
              rw [List.reverse_cons]
          | cons b t2 =>
              have hedge : Edge G a b := (List.chain'_cons.mp hw).1
              have hwt : IsWalk G (b :: t2) := (List.chain'_cons.mp hw).2
              have hlast : (b :: t2).getLast? = some Y := by
                rwa [List.getLast?_cons_cons] at hwl
              have hlen2 : (b :: t2).length ≤ k + 1 := by
                simp only [List.length_cons] at hlen ⊢
                omega
              apply List.mem_append.mpr
              right
              apply List.mem_flatten.mpr
              refine ⟨pcpTreeF G Y k (a :: pref) b, ?_, ?_⟩
              · apply List.mem_map.mpr
                exact ⟨b, List.mem_reverse.mpr (mem_successors.mpr hedge), rfl⟩
              · have := ih (a :: pref) b (b :: t2) hwt rfl hlast hlen2
                have heq : (a :: pref).reverse ++ (b :: t2) =
                    pref.reverse ++ (a :: b :: t2) := by
                  rw [List.reverse_cons, List.append_assoc]
                  rfl
                rwa [heq] at this

lemma successors_nodup {G : DiGraph} (hW : WF G) (u : String) :
    (successors G u).Nodup := by
  unfold successors
  apply List.Nodup.map_on
  · rintro ⟨a1, a2⟩ ha ⟨b1, b2⟩ hb hab
    simp only [List.mem_filter, decide_eq_true_eq] at ha hb
    simp only at hab
    rw [Prod.mk.injEq]
    exact ⟨ha.2.trans hb.2.symm, hab⟩
  · exact hW.2.1.filter _

lemma pcpTreeF_shape {G : DiGraph} {Y : String} {k : Nat} {pref : List String}
    {u : String} {q : List String} (hq : q ∈ pcpTreeF G Y k pref u) :
    ∃ w, q = pref.reverse ++ u :: w := by
  obtain ⟨w, _, hwh, _, hqe⟩ := pcpTreeF_sound k pref u q hq
  cases w with
  | nil => cases hwh
  | cons a t =>
      have ha : a = u := by simpa using hwh
      subst ha
      exact ⟨t, hqe⟩

lemma pcpTreeF_nodup {G : DiGraph} (hW : WF G) {Y : String} :
    ∀ k pref u, (pcpTreeF G Y k pref u).Nodup := by
  intro k
  induction k with
  | zero =>
      intro pref u
      by_cases hu : u = Y
      · rw [pcpTreeF, if_pos hu]
        exact List.nodup_singleton _
      · rw [pcpTreeF, if_neg hu]
        exact List.nodup_nil
  | succ k ih =>
      intro pref u
      apply List.Nodup.append
      · by_cases hu : u = Y
        · rw [if_pos hu]
          exact List.nodup_singleton _
        · rw [if_neg hu]
          exact List.nodup_nil
      · apply List.nodup_flatten.mpr
        constructor
        · intro l hl
          obtain ⟨c, _, hcl⟩ := List.mem_map.mp hl
          subst hcl
          exact ih (u :: pref) c
        · apply List.pairwise_map.mpr
          have hnd : (successors G u).reverse.Nodup :=
            List.nodup_reverse.mpr (successors_nodup hW u)
          apply List.Pairwise.imp ?_ hnd
          intro a b hab
          intro q hqa hqb
          obtain ⟨w, hwa⟩ := pcpTreeF_shape hqa
          obtain ⟨w', hwb⟩ := pcpTreeF_shape hqb
          rw [hwa] at hwb
          have := List.append_cancel_left hwb
          simp only [List.cons.injEq] at this
          exact hab this.1
      · intro q hq hq'
        obtain ⟨l, hl, hql⟩ := List.mem_flatten.mp hq'
        obtain ⟨c, _, hcl⟩ := List.mem_map.mp hl
        subst hcl
        obtain ⟨w, hw⟩ := pcpTreeF_shape hql
        by_cases hu : u = Y
        · rw [if_pos hu] at hq
          rcases List.mem_singleton.mp hq with h
          subst h
          have h1 : ((u :: pref).reverse).length = ((u :: pref).reverse ++ c :: w).length := by
            rw [← hw]
          simp only [List.length_append, List.length_cons] at h1
          omega
        · rw [if_neg hu] at hq
          cases hq

lemma toEdgePath_cons_cons (a b : String) (t : List String) :
    toEdgePath (a :: b :: t) = (a, b) :: toEdgePath (b :: t) := rfl

lemma toEdgePath_inj : ∀ {p q : List String}, 2 ≤ p.length → 2 ≤ q.length →
    toEdgePath p = toEdgePath q → p = q := by
  intro p
  induction p with
  | nil => intro q hp _ _; simp at hp
  | cons a tl ih =>
      intro q hp hq heq
      cases tl with
      | nil => simp at hp
      | cons b t =>
          cases q with
          | nil => simp at hq
          | cons a' tl' =>
              cases tl' with
              | nil => simp at hq
              | cons b' t' =>
                  rw [toEdgePath_cons_cons, toEdgePath_cons_cons] at heq
                  obtain ⟨hab, hrest⟩ := List.cons.injEq _ _ _ _ ▸ heq
                  obtain ⟨ha, hb⟩ := Prod.mk.injEq _ _ _ _ ▸ hab
                  subst ha
                  subst hb
                  cases t with
                  | nil =>
                      cases t' with
                      | nil => rfl
                      | cons c' t2' =>
                          exfalso
                          rw [toEdgePath_cons_cons] at hrest
                          exact absurd hrest.symm (List.cons_ne_nil _ _)
                  | cons c t2 =>
                      cases t' with
                      | nil =>
                          exfalso
                          rw [toEdgePath_cons_cons] at hrest
                          exact absurd hrest (List.cons_ne_nil _ _)
                      | cons c' t2' =>
                          have h2 := ih (q := b :: c' :: t2') (by simp) (by simp) hrest
                          rw [h2]

lemma walkFromTo_two_le {w : List String} {X Y : String} (hwh : w.head? = some X)
    (hwl : w.getLast? = some Y) (hXY : X ≠ Y) : 2 ≤ w.length := by
  cases w with
  | nil => cases hwh
  | cons a t =>
      cases t with
      | nil =>
          exfalso
          have h1 : a = X := by simpa using hwh
          have h2 : a = Y := by simpa using hwl
          exact hXY (h1 ▸ h2 ▸ rfl)
      | cons b t2 => simp

lemma mem_findProperCausalPath {G : DiGraph} (hA : Acyclic G) (hW : WF G)
    (X Y : String) (q : List (String × String)) :
    q ∈ findProperCausalPath G X Y ↔
      ∃ w, IsWalkFromTo G w X Y ∧ q = toEdgePath w := by
  rw [findProperCausalPath_eq hA hW]
  simp only [List.mem_map]
  constructor
  · rintro ⟨np, hnp, rfl⟩
    obtain ⟨w, hw, hwh, hwl, hqe⟩ := pcpTreeF_sound _ [] X np hnp
    simp only [List.reverse_nil, List.nil_append] at hqe
    subst hqe
    exact ⟨np, ⟨hw, hwh, hwl⟩, rfl⟩
  · rintro ⟨w, ⟨hw, hwh, hwl⟩, rfl⟩
    refine ⟨w, ?_, rfl⟩
    have hlen : w.length ≤ G.nodes.length + 1 := by
      cases w with
      | nil => cases hwh
      | cons a t =>
          have ha : a = X := by simpa using hwh
          have := walkBnd_all hA hW a t hw
          simp only [List.length_cons]
          omega
    have := pcpTreeF_complete G.nodes.length [] X w hw hwh hwl hlen
    simpa using this

lemma nodup_findProperCausalPath {G : DiGraph} (hA : Acyclic G) (hW : WF G)
    {X Y : String} (hXY : X ≠ Y) : (findProperCausalPath G X Y).Nodup := by
  rw [findProperCausalPath_eq hA hW]
  apply List.Nodup.map_on ?_ (pcpTreeF_nodup hW _ [] X)
  intro p hp q hq heq
  obtain ⟨wp, hwp, hwph, hwpl, hpe⟩ := pcpTreeF_sound _ [] X p hp
  obtain ⟨wq, hwq, hwqh, hwql, hqe⟩ := pcpTreeF_sound _ [] X q hq
  simp only [List.reverse_nil, List.nil_append] at hpe hqe
  subst hpe
  subst hqe
  exact toEdgePath_inj (walkFromTo_two_le hwph hwpl hXY)
    (walkFromTo_two_le hwqh hwql hXY) heq

lemma walk_head_nodup {G : DiGraph} (hA : Acyclic G) {w : List String} {X : String}
    (hw : IsWalk G w) (hwh : w.head? = some X) :
    w.Nodup ∧ ∀ x ∈ w.tail, x ≠ X := by
  refine ⟨walk_nodup hA hw, ?_⟩
  cases w with
  | nil => cases hwh
  | cons a t =>
      have ha : a = X := by simpa using hwh
      subst ha
      intro x hx heq
      subst heq
      exact (List.nodup_cons.mp (walk_nodup hA hw)).1 hx


/-! The three graph transforms. -/

lemma removeEdge_ok {H : DiGraph} {u v : String} (h : (u, v) ∈ H.edges) :
    removeEdge H u v = Except.ok ⟨H.nodes, H.edges.erase (u, v)⟩ := by
  unfold removeEdge
  rw [if_pos h]

lemma createGXBarAbove_fold {X : String} :
    ∀ (L : List String) (H : DiGraph), L.Nodup → H.edges.Nodup →
      (∀ p ∈ L, (p, X) ∈ H.edges) →
      L.foldlM (fun Gc parent => removeEdge Gc parent X) H =
        Except.ok ⟨H.nodes, H.edges.filter (fun e => decide (¬ (e.1 ∈ L ∧ e.2 = X)))⟩ := by
  intro L
  induction L with
  | nil =>
      intro H _ _ _
      simp only [List.foldlM_nil]
      have hfeq : H.edges.filter
          (fun e => decide (¬ (e.1 ∈ ([] : List String) ∧ e.2 = X))) = H.edges := by
        apply List.filter_eq_self.mpr
        intro a _
        simp
      rw [hfeq]
      rfl
  | cons p L ih =>
      intro H hLnd hHnd hmem
      have hpX : (p, X) ∈ H.edges := hmem p (List.mem_cons_self p L)
      rw [List.foldlM_cons, removeEdge_ok hpX]
      show L.foldlM _ (⟨H.nodes, H.edges.erase (p, X)⟩ : DiGraph) = _
      have hnd' : (H.edges.erase (p, X)).Nodup := hHnd.erase _
      have hmem' : ∀ q ∈ L, (q, X) ∈ H.edges.erase (p, X) := by
        intro q hq
        apply (List.mem_erase_of_ne ?_).mpr (hmem q (List.mem_cons_of_mem p hq))
        intro hqp
        rw [Prod.mk.injEq] at hqp
        exact (List.nodup_cons.mp hLnd).1 (hqp.1 ▸ hq)
      rw [ih _ (List.nodup_cons.mp hLnd).2 hnd' hmem']
      have hfeq : (H.edges.erase (p, X)).filter
          (fun e => decide (¬ (e.1 ∈ L ∧ e.2 = X))) =
          H.edges.filter (fun e => decide (¬ (e.1 ∈ p :: L ∧ e.2 = X))) := by
        rw [hHnd.erase_eq_filter, List.filter_filter]
        apply List.filter_congr
        intro e _
        rcases e with ⟨e1, e2⟩
        rw [Bool.eq_iff_iff]
        simp only [Bool.and_eq_true, decide_eq_true_eq, bne_iff_ne, ne_eq,
          Prod.mk.injEq, List.mem_cons, not_and, not_or]
        tauto
      rw [hfeq]

lemma predecessors_nodup {G : DiGraph} (hW : WF G) (v : String) :
    (predecessors G v).Nodup := by
  unfold predecessors
  apply List.Nodup.map_on
  · rintro ⟨a1, a2⟩ ha ⟨b1, b2⟩ hb hab
    simp only [List.mem_filter, decide_eq_true_eq] at ha hb
    simp only at hab
    rw [Prod.mk.injEq]
    exact ⟨hab, ha.2.trans hb.2.symm⟩
  · exact hW.2.1.filter _

lemma createGXBarAbove_eq {G : DiGraph} (hW : WF G) (X : String) :
    createGXBarAbove G X = Except.ok (gxAboveSpec G X) := by
  unfold createGXBarAbove
  rw [createGXBarAbove_fold (predecessors G X) G (predecessors_nodup hW X) hW.2.1
    (fun p hp => mem_predecessors.mp hp)]
  unfold gxAboveSpec
  have hfeq : G.edges.filter (fun e => decide (¬ (e.1 ∈ predecessors G X ∧ e.2 = X))) =
      G.edges.filter (fun e => decide (e.2 ≠ X)) := by
    apply List.filter_congr
    intro e he
    rw [Bool.eq_iff_iff]
    simp only [decide_eq_true_eq, ne_eq, not_and]
    constructor
    · intro hnot h2
      exact hnot (mem_predecessors.mpr (by rw [← h2]; exact he)) h2
    · intro h2 _ hx
      exact h2 hx
  rw [hfeq]

lemma createGXBarBelow_fold {X : String} :
    ∀ (L : List String) (H : DiGraph), L.Nodup → H.edges.Nodup →
      (∀ c ∈ L, (X, c) ∈ H.edges) →
      L.foldlM (fun Gc child => removeEdge Gc X child) H =
        Except.ok ⟨H.nodes, H.edges.filter (fun e => decide (¬ (e.1 = X ∧ e.2 ∈ L)))⟩ := by
  intro L
  induction L with
  | nil =>
      intro H _ _ _
      simp only [List.foldlM_nil]
      have hfeq : H.edges.filter
          (fun e => decide (¬ (e.1 = X ∧ e.2 ∈ ([] : List String)))) = H.edges := by
        apply List.filter_eq_self.mpr
        intro a _
        simp
      rw [hfeq]
      rfl
  | cons c L ih =>
      intro H hLnd hHnd hmem
      have hXc : (X, c) ∈ H.edges := hmem c (List.mem_cons_self c L)
      rw [List.foldlM_cons, removeEdge_ok hXc]
      show L.foldlM _ (⟨H.nodes, H.edges.erase (X, c)⟩ : DiGraph) = _
      have hnd' : (H.edges.erase (X, c)).Nodup := hHnd.erase _
      have hmem' : ∀ q ∈ L, (X, q) ∈ H.edges.erase (X, c) := by
        intro q hq
        apply (List.mem_erase_of_ne ?_).mpr (hmem q (List.mem_cons_of_mem c hq))
        intro hqc
        rw [Prod.mk.injEq] at hqc
        exact (List.nodup_cons.mp hLnd).1 (hqc.2 ▸ hq)
      rw [ih _ (List.nodup_cons.mp hLnd).2 hnd' hmem']
      have hfeq : (H.edges.erase (X, c)).filter
          (fun e => decide (¬ (e.1 = X ∧ e.2 ∈ L))) =
          H.edges.filter (fun e => decide (¬ (e.1 = X ∧ e.2 ∈ c :: L))) := by
        rw [hHnd.erase_eq_filter, List.filter_filter]
        apply List.filter_congr
        intro e _
        rcases e with ⟨e1, e2⟩
        rw [Bool.eq_iff_iff]
        simp only [Bool.and_eq_true, decide_eq_true_eq, bne_iff_ne, ne_eq,
          Prod.mk.injEq, List.mem_cons, not_and, not_or]
        tauto
      rw [hfeq]

lemma createGXBarBelow_eq {G : DiGraph} (hW : WF G) (X : String) :
    createGXBarBelow G X = Except.ok (gxBelowSpec G X) := by
  unfold createGXBarBelow
  rw [createGXBarBelow_fold (successors G X) G (successors_nodup hW X) hW.2.1
    (fun c hc => mem_successors.mp hc)]
  unfold gxBelowSpec
  have hfeq : G.edges.filter (fun e => decide (¬ (e.1 = X ∧ e.2 ∈ successors G X))) =
      G.edges.filter (fun e => decide (e.1 ≠ X)) := by
    apply List.filter_congr
    intro e he
    rw [Bool.eq_iff_iff]
    simp only [decide_eq_true_eq, ne_eq, not_and]
    constructor
    · intro hnot h1
      exact hnot h1 (mem_successors.mpr (by rw [← h1]; exact he))
    · intro h1 hx _
      exact h1 hx
  rw [hfeq]

lemma createProperBackdoorGraph_eq :
    ∀ (paths : List (List (String × String))) (H : DiGraph), H.edges.Nodup →
      (∀ pa ∈ paths, pa ≠ []) →
      createProperBackdoorGraph H paths =
        Except.ok ⟨H.nodes, H.edges.filter (fun e => decide (e ∉ firstEdges paths))⟩ := by
  intro paths
  induction paths with
  | nil =>
      intro H _ _
      unfold createProperBackdoorGraph
      simp only [List.foldlM_nil]
      have hfeq : H.edges.filter (fun e => decide (e ∉ firstEdges [])) = H.edges := by
        apply List.filter_eq_self.mpr
        intro a _
        simp [firstEdges]
      rw [hfeq]
      rfl
  | cons pa rest ih =>
      intro H hnd hne
      rcases hpa : pa with _ | ⟨⟨s, k⟩, patl⟩
      · exact absurd hpa (hne pa (List.mem_cons_self pa rest))
      · subst hpa
        have hcongr : ∀ H2 : DiGraph,
            createProperBackdoorGraph H2 (((s, k) :: patl) :: rest) =
            (if hasEdge H2 s k then removeEdge H2 s k else Except.ok H2).bind
              (fun Gc => createProperBackdoorGraph Gc rest) := by
          intro H2
          unfold createProperBackdoorGraph
          rw [List.foldlM_cons]
          rfl
        rw [hcongr H]
        have hfe : firstEdges (((s, k) :: patl) :: rest) = (s, k) :: firstEdges rest := rfl
        by_cases hmem : (s, k) ∈ H.edges
        · rw [show hasEdge H s k = true from decide_eq_true hmem]
          simp only [if_true]
          rw [removeEdge_ok hmem]
          show createProperBackdoorGraph (⟨H.nodes, H.edges.erase (s, k)⟩ : DiGraph) rest = _
          rw [ih _ (hnd.erase _) (fun q hq => hne q (List.mem_cons_of_mem _ hq))]
          have hfeq : (H.edges.erase (s, k)).filter
              (fun e => decide (e ∉ firstEdges rest)) =
              H.edges.filter (fun e => decide (e ∉ firstEdges (((s, k) :: patl) :: rest))) := by
            rw [hnd.erase_eq_filter, List.filter_filter, hfe]
            apply List.filter_congr
            intro e _
            rw [Bool.eq_iff_iff]
            simp only [Bool.and_eq_true, decide_eq_true_eq, bne_iff_ne, ne_eq,
              List.mem_cons, not_or]
            tauto
          rw [hfeq]
        · rw [show hasEdge H s k = false from decide_eq_false hmem]
          simp only [Bool.false_eq_true, if_false]
          show createProperBackdoorGraph H rest = _
          rw [ih _ hnd (fun q hq => hne q (List.mem_cons_of_mem _ hq))]
          have hfeq : H.edges.filter (fun e => decide (e ∉ firstEdges rest)) =
              H.edges.filter
                (fun e => decide (e ∉ firstEdges (((s, k) :: patl) :: rest))) := by
            rw [hfe]
            apply List.filter_congr
            intro e he
            rw [Bool.eq_iff_iff]
            simp only [decide_eq_true_eq, List.mem_cons, not_or]
            have hesk : e ≠ (s, k) := by
              intro h
              exact hmem (h ▸ he)
            tauto
          rw [hfeq]


/-! The binary string of the subset loop. -/

lemma bitsAux_congr :
    ∀ f1 f2 i, i ≤ f1 → i ≤ f2 → bitsAux f1 i = bitsAux f2 i := by
  intro f1
  induction f1 with
  | zero =>
      intro f2 i h1 _
      have hi : i = 0 := by omega
      subst hi
      cases f2 with
      | zero => rfl
      | succ f2 => rfl
  | succ f1 ih =>
      intro f2 i h1 h2
      cases i with
      | zero =>
          cases f2 with
          | zero => rfl
          | succ f2 => rfl
      | succ n =>
          cases f2 with
          | zero => omega
          | succ f2 =>
              show (if (n + 1) % 2 = 1 then '1' else '0') :: bitsAux f1 ((n + 1) / 2) =
                (if (n + 1) % 2 = 1 then '1' else '0') :: bitsAux f2 ((n + 1) / 2)
              have hd : (n + 1) / 2 ≤ n := by omega
              rw [ih f2 ((n + 1) / 2) (by omega) (by omega)]

lemma bits_zero : bits 0 = [] := rfl

lemma bits_succ (n : Nat) :
    bits (n + 1) = (if (n + 1) % 2 = 1 then '1' else '0') :: bits ((n + 1) / 2) := by
  show (if (n + 1) % 2 = 1 then '1' else '0') :: bitsAux n ((n + 1) / 2) = _
  have hd : (n + 1) / 2 ≤ n := by omega
  rw [bitsAux_congr n ((n + 1) / 2) ((n + 1) / 2) hd (le_refl _)]
  rfl

lemma bits_getD : ∀ k i, (bits i).getD k '0' = (if i.testBit k then '1' else '0') := by
  intro k
  induction k with
  | zero =>
      intro i
      cases i with
      | zero =>
          rw [bits_zero]
          simp
      | succ n =>
          rw [bits_succ]
          show (if (n + 1) % 2 = 1 then '1' else '0') = _
          rw [Nat.testBit_zero]
          by_cases h : (n + 1) % 2 = 1
          · rw [if_pos h, if_pos (by simpa using h)]
          · rw [if_neg h, if_neg (by simpa using h)]
  | succ k ih =>
      intro i
      cases i with
      | zero =>
          rw [bits_zero]
          simp
      | succ n =>
          rw [bits_succ]
          show (bits ((n + 1) / 2)).getD k '0' = _
          rw [ih ((n + 1) / 2), Nat.testBit_succ]

lemma bits_lt : ∀ i, i < 2 ^ (bits i).length := by
  intro i
  induction i using Nat.strong_induction_on with
  | _ i ih =>
      cases i with
      | zero =>
          rw [bits_zero]
          simp
      | succ n =>
          rw [bits_succ]
          simp only [List.length_cons]
          have hdiv : (n + 1) / 2 < n + 1 := Nat.div_lt_self (Nat.succ_pos n) one_lt_two
          have h1 := ih ((n + 1) / 2) hdiv
          have h2 : n + 1 ≤ 2 * ((n + 1) / 2) + 1 := by omega
          have h3 : 2 * ((n + 1) / 2) + 1 < 2 * 2 ^ (bits ((n + 1) / 2)).length := by omega
          rw [pow_succ]
          omega

lemma bits_len_le : ∀ i L, i < 2 ^ L → (bits i).length ≤ L := by
  intro i
  induction i using Nat.strong_induction_on with
  | _ i ih =>
      intro L hL
      cases i with
      | zero =>
          rw [bits_zero]
          simp
      | succ n =>
          cases L with
          | zero =>
              simp only [pow_zero] at hL
              omega
          | succ L =>
              rw [bits_succ]
              simp only [List.length_cons]
              have hdiv : (n + 1) / 2 < n + 1 := Nat.div_lt_self (Nat.succ_pos n) one_lt_two
              have hlt : (n + 1) / 2 < 2 ^ L := by
                rw [pow_succ] at hL
                omega
              have := ih ((n + 1) / 2) hdiv L hlt
              omega

lemma getD_all {l : List Char} {c : Char} (h : ∀ x ∈ l, x = c) (j : Nat) :
    l.getD j c = c := by
  by_cases hj : j < l.length
  · rw [List.getD_eq_getElem l c hj]
    exact h _ (List.getElem_mem hj)
  · rw [List.getD_eq_getElem?_getD, List.getElem?_eq_none (by omega)]
    rfl

lemma getD_reverse {l : List Char} {j : Nat} (h : j < l.length) (c : Char) :
    l.reverse.getD j c = l.getD (l.length - 1 - j) c := by
  have h1 : j < l.reverse.length := by
    rwa [List.length_reverse]
  rw [List.getD_eq_getElem _ c h1, List.getD_eq_getElem _ c (by omega)]
  rw [List.getElem_reverse]

lemma binString_getD {i w j : Nat} (hi : i < 2 ^ w) (hj : j < w) :
    ((binString i w).getD j '0' = '1') ↔ i.testBit (w - 1 - j) := by
  by_cases h0 : i = 0
  · subst h0
    have hall : (binString 0 w).getD j '0' = '0' := by
      apply getD_all
      intro x hx
      unfold binString zfill pyBin at hx
      rw [if_pos rfl] at hx
      rcases List.mem_append.mp hx with hx | hx
      · exact List.eq_of_mem_replicate hx
      · simpa using hx
    rw [hall]
    simp
  · have hbs : binString i w = List.replicate (w - (bits i).length) '0' ++ (bits i).reverse := by
      unfold binString zfill pyBin
      rw [if_neg h0, List.length_reverse]
    have hL : (bits i).length ≤ w := bits_len_le i w hi
    have hiL : i < 2 ^ (bits i).length := bits_lt i
    rw [hbs]
    by_cases hjL : j < w - (bits i).length
    · rw [List.getD_append _ _ _ _ (by rwa [List.length_replicate])]
      have h1 : (List.replicate (w - (bits i).length) '0').getD j '0' = '0' := by
        apply getD_all
        intro x hx
        exact List.eq_of_mem_replicate hx
      rw [h1]
      have h2 : i.testBit (w - 1 - j) = false := by
        apply Nat.testBit_lt_two_pow
        calc i < 2 ^ (bits i).length := hiL
          _ ≤ 2 ^ (w - 1 - j) := Nat.pow_le_pow_right (by omega) (by omega)
      rw [h2]
      simp
    · have hjge : w - (bits i).length ≤ j := by omega
      rw [List.getD_append_right _ _ _ _ (by rwa [List.length_replicate])]
      rw [List.length_replicate]
      have hidx : j - (w - (bits i).length) < (bits i).length := by omega
      rw [getD_reverse hidx]
      rw [bits_getD]
      have harith : (bits i).length - 1 - (j - (w - (bits i).length)) = w - 1 - j := by
        omega
      rw [harith]
      by_cases hb : i.testBit (w - 1 - j)
      · rw [if_pos hb]
        simp [hb]
      · rw [if_neg hb]
        simp [hb]


/-! D_pcp membership. -/

lemma foldl_insert_mem (l : List String) :
    ∀ (s0 : Finset String) (x : String),
      (x ∈ l.foldl (fun s v => insert v s) s0) ↔ x ∈ s0 ∨ x ∈ l := by
  induction l with
  | nil => intro s0 x; simp
  | cons a t ih =>
      intro s0 x
      show x ∈ t.foldl _ (insert a s0) ↔ _
      rw [ih (insert a s0) x]
      simp only [Finset.mem_insert, List.mem_cons]
      tauto

lemma dpcp_edge_fold_mem (G : DiGraph) (path : List (String × String)) :
    ∀ (s : Finset String) (x : String),
      (x ∈ path.foldl (fun s e =>
        (findDescendants G e.2).foldl (fun s v => insert v s)
          ((findDescendants G e.1).foldl (fun s v => insert v s) s)) s) ↔
      x ∈ s ∨ ∃ e ∈ path, x ∈ findDescendants G e.1 ∨ x ∈ findDescendants G e.2 := by
  induction path with
  | nil => intro s x; simp
  | cons e t ih =>
      intro s x
      show x ∈ t.foldl _ _ ↔ _
      rw [ih]
      rw [foldl_insert_mem, foldl_insert_mem]
      simp only [List.mem_cons]
      constructor
      · rintro (((h | h) | h) | ⟨e2, he2, h⟩)
        · exact Or.inl h
        · exact Or.inr ⟨e, Or.inl rfl, Or.inl h⟩
        · exact Or.inr ⟨e, Or.inl rfl, Or.inr h⟩
        · exact Or.inr ⟨e2, Or.inr he2, h⟩
      · rintro (h | ⟨e2, he2 | he2, h⟩)
        · exact Or.inl (Or.inl (Or.inl h))
        · subst he2
          rcases h with h | h
          · exact Or.inl (Or.inl (Or.inr h))
          · exact Or.inl (Or.inr h)
        · exact Or.inr ⟨e2, he2, h⟩

lemma mem_dpcpOf (G : DiGraph) (paths : List (List (String × String))) (x : String) :
    x ∈ dpcpOf G paths ↔
      ∃ pa ∈ paths, ∃ e ∈ pa, x ∈ findDescendants G e.1 ∨ x ∈ findDescendants G e.2 := by
  unfold dpcpOf
  have hgen : ∀ (s : Finset String),
      (x ∈ paths.foldl (fun s path => path.foldl (fun s e =>
        (findDescendants G e.2).foldl (fun s v => insert v s)
          ((findDescendants G e.1).foldl (fun s v => insert v s) s)) s) s) ↔
      x ∈ s ∨ ∃ pa ∈ paths, ∃ e ∈ pa,
        x ∈ findDescendants G e.1 ∨ x ∈ findDescendants G e.2 := by
    induction paths with
    | nil => intro s; simp
    | cons pa rest ih =>
        intro s
        show x ∈ rest.foldl _ _ ↔ _
        rw [ih, dpcp_edge_fold_mem]
        simp only [List.mem_cons]
        constructor
        · rintro ((h | ⟨e, he, h⟩) | ⟨pa2, hpa2, he⟩)
          · exact Or.inl h
          · exact Or.inr ⟨pa, Or.inl rfl, e, he, h⟩
          · exact Or.inr ⟨pa2, Or.inr hpa2, he⟩
        · rintro (h | ⟨pa2, hpa2 | hpa2, he⟩)
          · exact Or.inl (Or.inl h)
          · subst hpa2
            exact Or.inl (Or.inr he)
          · exact Or.inr ⟨pa2, hpa2, he⟩
  rw [hgen]
  simp

lemma mem_dpcpList (G : DiGraph) (paths : List (List (String × String))) (x : String) :
    x ∈ dpcpList G paths ↔
      ∃ pa ∈ paths, ∃ e ∈ pa, x ∈ findDescendants G e.1 ∨ x ∈ findDescendants G e.2 := by
  unfold dpcpList
  simp only [List.mem_flatten, List.mem_map]
  constructor
  · rintro ⟨l, ⟨e, he, hle⟩, hx⟩
    subst hle
    obtain ⟨pa, hpa, hepa⟩ := he
    exact ⟨pa, hpa, e, hepa, List.mem_append.mp hx⟩
  · rintro ⟨pa, hpa, e, hepa, hx⟩
    refine ⟨findDescendants G e.1 ++ findDescendants G e.2,
      ⟨e, ⟨pa, hpa, hepa⟩, rfl⟩, List.mem_append.mpr hx⟩

lemma dpcp_mem_eqv (G : DiGraph) (paths : List (List (String × String))) (x : String) :
    (x ∈ dpcpOf G paths) ↔ x ∈ dpcpList G paths := by
  rw [mem_dpcpOf, mem_dpcpList]

/-! Edge-path and walk membership helpers. -/

lemma toEdgePath_length (p : List String) :
    (toEdgePath p).length = p.length - 1 := by
  unfold toEdgePath
  rw [List.length_zip, List.length_tail]
  omega

lemma pcp_ne_nil {G : DiGraph} (hA : Acyclic G) (hW : WF G) {X Y : String}
    (hXY : X ≠ Y) : ∀ pa ∈ findProperCausalPath G X Y, pa ≠ [] := by
  intro pa hpa
  obtain ⟨w, hwft, hpe⟩ := (mem_findProperCausalPath hA hW X Y pa).mp hpa
  subst hpe
  have h2 : 2 ≤ w.length := walkFromTo_two_le hwft.2.1 hwft.2.2 hXY
  intro hnil
  have := toEdgePath_length w
  rw [hnil] at this
  simp at this
  omega

lemma mem_toEdgePath_endpoints {w : List String} {e : String × String}
    (he : e ∈ toEdgePath w) : e.1 ∈ w ∧ e.2 ∈ w := by
  unfold toEdgePath at he
  rcases e with ⟨a, b⟩
  have := List.of_mem_zip he
  exact ⟨this.1, List.mem_of_mem_tail this.2⟩

lemma mem_walk_toEdgePath : ∀ {w : List String} {u : String}, 2 ≤ w.length → u ∈ w →
    ∃ e ∈ toEdgePath w, u = e.1 ∨ u = e.2 := by
  intro w
  induction w with
  | nil => intro u h _; simp at h
  | cons a t ih =>
      intro u hlen hu
      cases t with
      | nil => simp at hlen
      | cons b t2 =>
          rcases List.mem_cons.mp hu with hu | hu
          · subst hu
            exact ⟨(u, b), List.mem_cons_self _ _, Or.inl rfl⟩
          · cases t2 with
            | nil =>
                rcases List.mem_singleton.mp hu with h
                subst h
                exact ⟨(a, u), List.mem_cons_self _ _, Or.inr rfl⟩
            | cons c t3 =>
                obtain ⟨e, he, heu⟩ := ih (by simp) hu
                exact ⟨e, List.mem_cons_of_mem _ he, heu⟩


/-! The Z / R_W construction loop. -/

lemma zrwStep_eq {V : List (String × Option String)} {X Y : String} {i j : Nat}
    (hi : i < 2 ^ V.length) (hj : j < V.length)
    (Z0 R0 : List String) :
    zrwStep X Y (binString i V.length) V (Z0, R0) j =
      (Z0 ++ (if i.testBit (V.length - 1 - j) then [(V.getD j (default, none)).1] else []),
       R0 ++ rwContrib X Y V i j) := by
  unfold zrwStep rwContrib
  rcases hent : V.getD j (default, none) with ⟨name, ind⟩
  simp only [hent]
  by_cases hb : i.testBit (V.length - 1 - j)
  · have hsel : (binString i V.length).getD j '0' = '1' := (binString_getD hi hj).mpr hb
    rw [if_pos hsel, if_pos hb]
    rcases ind with _ | m
    · simp
    · simp only
      by_cases hxy : name = X ∨ name = Y
      · have hnand : ¬ (name ≠ X ∧ name ≠ Y) := by tauto
        rw [if_neg hnand, if_pos hxy]
        rw [if_neg (by tauto : ¬ (i.testBit (V.length - 1 - j) ∧ name ≠ X ∧ name ≠ Y)),
          if_pos hxy]
        simp
      · have hand : name ≠ X ∧ name ≠ Y := by tauto
        rw [if_pos hand, if_neg hxy]
        rw [if_pos ⟨hb, hand⟩, if_neg hxy]
        simp
  · have hsel : ¬ ((binString i V.length).getD j '0' = '1') := by
      intro h
      exact hb ((binString_getD hi hj).mp h)
    rw [if_neg hsel, if_neg hb]
    rcases ind with _ | m
    · simp
    · simp only
      by_cases hxy : name = X ∨ name = Y
      · rw [if_pos hxy,
          if_neg (by tauto : ¬ (i.testBit (V.length - 1 - j) ∧ name ≠ X ∧ name ≠ Y)),
          if_pos hxy]
        simp
      · rw [if_neg hxy,
          if_neg (by tauto : ¬ (i.testBit (V.length - 1 - j) ∧ name ≠ X ∧ name ≠ Y)),
          if_neg hxy]
        simp

lemma zrw_fold_eq {V : List (String × Option String)} {X Y : String} {i : Nat}
    (hi : i < 2 ^ V.length) :
    ∀ n, n ≤ V.length →
      (List.range n).foldl (zrwStep X Y (binString i V.length) V) ([], []) =
      (((List.range n).filter (fun j => i.testBit (V.length - 1 - j))).map
          (fun j => (V.getD j (default, none)).1),
       ((List.range n).map (rwContrib X Y V i)).flatten) := by
  intro n
  induction n with
  | zero => intro _; rfl
  | succ n ih =>
      intro hn
      rw [List.range_succ, List.foldl_append, List.filter_append, List.map_append,
        List.map_append, List.flatten_append]
      rw [ih (by omega)]
      simp only [List.foldl_cons, List.foldl_nil]
      rw [zrwStep_eq hi (by omega)]
      by_cases hb : i.testBit (V.length - 1 - n)
      · rw [if_pos hb]
        simp only [List.filter_cons, List.filter_nil, hb]
        simp
      · rw [if_neg hb]
        simp only [List.filter_cons, List.filter_nil, hb]
        simp

lemma zrw_eq {V : List (String × Option String)} {X Y : String} {i : Nat}
    (hi : i < 2 ^ V.length) :
    (List.range V.length).foldl (zrwStep X Y (binString i V.length) V) ([], []) =
      (Zsel V i, RWsel X Y V i) := by
  rw [zrw_fold_eq hi V.length (le_refl _)]
  rfl


/-! Characterization of one subset-loop iteration. -/

lemma cond1_rel (G : DiGraph) (paths : List (List (String × String)))
    (Z : List String) :
    (Z.any (fun v => decide (v ∈ dpcpOf G paths))) =
      ! (Z.all (fun v => decide (v ∉ dpcpList G paths))) := by
  rw [Bool.eq_iff_iff]
  simp only [List.any_eq_true, decide_eq_true_eq, Bool.not_eq_true',
    List.all_eq_false, dpcp_mem_eqv]
  constructor
  · rintro ⟨x, hx, hmem⟩
    exact ⟨x, hx, by simpa using hmem⟩
  · rintro ⟨x, hx, hmem⟩
    exact ⟨x, hx, by simpa using hmem⟩

lemma listMAdjStep_eq {G : DiGraph} {X Y : String} {V : List (String × Option String)}
    (hA : Acyclic G) (hW : WF G) (hXY : X ≠ Y)
    (st : List (List String) × Option (List String)) {i : Nat} (hi : i < 2 ^ V.length) :
    listMAdjStep G X Y V (findProperCausalPath G X Y)
        (dpcpOf G (findProperCausalPath G X Y)) st i =
      Except.ok (if MCond G X Y V i then (st.1 ++ [Zsel V i], bestStep st.2 (Zsel V i))
        else st) := by
  have hpbd : createProperBackdoorGraph G (findProperCausalPath G X Y) =
      Except.ok (pbdSpec G (findProperCausalPath G X Y)) :=
    createProperBackdoorGraph_eq _ G hW.2.1 (pcp_ne_nil hA hW hXY)
  have hga : createGXBarAbove G X = Except.ok (gxAboveSpec G X) :=
    createGXBarAbove_eq hW X
  have hgb : createGXBarBelow G X = Except.ok (gxBelowSpec G X) :=
    createGXBarBelow_eq hW X
  unfold listMAdjStep
  simp only [zrw_eq hi]
  show (if (Zsel V i).any (fun vertex =>
      decide (vertex ∈ dpcpOf G (findProperCausalPath G X Y))) then
      pure st else _) = _
  rw [cond1_rel G (findProperCausalPath G X Y) (Zsel V i)]
  by_cases h1 : (Zsel V i).all
      (fun v => decide (v ∉ dpcpList G (findProperCausalPath G X Y))) = true
  · rw [h1]
    show (createProperBackdoorGraph G (findProperCausalPath G X Y)).bind _ = _
    rw [hpbd]
    show (if ! dSeparated (pbdSpec G (findProperCausalPath G X Y)) [Y] [X]
        (Zsel V i ++ RWsel X Y V i) then pure st else _) = _
    by_cases h2 : dSeparated (pbdSpec G (findProperCausalPath G X Y)) [Y] [X]
        (Zsel V i ++ RWsel X Y V i) = true
    · rw [h2]
      show (createGXBarAbove G X).bind _ = _
      rw [hga]
      show (if ! dSeparated (gxAboveSpec G X) [Y] (RWsel X Y V i) [X] then pure st
          else _) = _
      by_cases h3 : dSeparated (gxAboveSpec G X) [Y] (RWsel X Y V i) [X] = true
      · rw [h3]
        by_cases h4a : isAncestor G X (RWsel X Y V i) = true
        · rw [if_pos h4a, hgb]
          show (if ! dSeparated (gxBelowSpec G X) [X] [Y] [] then pure st else _) = _
          by_cases h4b : dSeparated (gxBelowSpec G X) [X] [Y] [] = true
          · rw [h4b]
            show Except.ok (st.1 ++ [Zsel V i], bestStep st.2 (Zsel V i)) = _
            have hmc : MCond G X Y V i = true := by
              simp only [MCond]
              rw [h1, h2, h3, h4a, h4b]
              rfl
            simp [hmc]
          · rw [Bool.not_eq_true] at h4b
            rw [h4b]
            show Except.ok st = _
            have hmc : MCond G X Y V i = false := by
              simp only [MCond]
              rw [h1, h2, h3, h4a, h4b]
              rfl
            simp [hmc]
        · rw [if_neg h4a]
          rw [Bool.not_eq_true] at h4a
          show Except.ok (st.1 ++ [Zsel V i], bestStep st.2 (Zsel V i)) = _
          have hmc : MCond G X Y V i = true := by
            simp only [MCond]
            rw [h1, h2, h3, h4a]
            rfl
          simp [hmc]
      · rw [Bool.not_eq_true] at h3
        rw [h3]
        show Except.ok st = _
        have hmc : MCond G X Y V i = false := by
          simp only [MCond]
          rw [h1, h2, h3]
          rfl
        simp [hmc]
    · rw [Bool.not_eq_true] at h2
      rw [h2]
      show Except.ok st = _
      have hmc : MCond G X Y V i = false := by
        simp only [MCond]
        rw [h1, h2]
        rfl
      simp [hmc]
  · rw [Bool.not_eq_true] at h1
    rw [h1]
    show Except.ok st = _
    have hmc : MCond G X Y V i = false := by
      simp only [MCond]
      rw [h1]
      rfl
    simp [hmc]


/-! The subset loop as a filter, and the best-set fold. -/

lemma foldlM_ok_of {α σ : Type} (f : σ → α → Except PyError σ) (g : σ → α → σ) :
    ∀ (l : List α) (s0 : σ), (∀ s a, a ∈ l → f s a = Except.ok (g s a)) →
      l.foldlM f s0 = Except.ok (l.foldl g s0) := by
  intro l
  induction l with
  | nil => intro s0 _; rfl
  | cons a t ih =>
      intro s0 h
      rw [List.foldlM_cons, h s0 a (List.mem_cons_self a t), List.foldl_cons]
      show t.foldlM f (g s0 a) = _
      exact ih _ (fun s a2 ha2 => h s a2 (List.mem_cons_of_mem a ha2))

lemma foldl_filter_best (C : Nat → Bool) (g : Nat → List String) :
    ∀ (l : List Nat) (acc : List (List String)) (b : Option (List String)),
      l.foldl (fun st i =>
        if C i then (st.1 ++ [g i], bestStep st.2 (g i)) else st) (acc, b) =
      (acc ++ l.filterMap (fun i => if C i then some (g i) else none),
       (l.filterMap (fun i => if C i then some (g i) else none)).foldl bestStep b) := by
  intro l
  induction l with
  | nil => intro acc b; simp
  | cons i t ih =>
      intro acc b
      rw [List.foldl_cons, List.filterMap_cons]
      by_cases hc : C i = true
      · simp only [hc, if_true]
        rw [ih]
        simp
      · simp only [hc]
        rw [if_neg (by simp [hc]), ih]
        simp [hc]

lemma listMAdj_char {G : DiGraph} {X Y : String} {V : List (String × Option String)}
    (hA : Acyclic G) (hW : WF G) (hXY : X ≠ Y) :
    listMAdj G X Y V = Except.ok (validSpec G X Y V, bestOf (validSpec G X Y V)) := by
  unfold listMAdj
  show (List.range (2 ^ V.length)).foldlM
      (listMAdjStep G X Y V (findProperCausalPath G X Y)
        (dpcpOf G (findProperCausalPath G X Y))) ([], none) = _
  rw [foldlM_ok_of _
    (fun st i => if MCond G X Y V i then (st.1 ++ [Zsel V i], bestStep st.2 (Zsel V i))
      else st)
    _ _
    (fun s a ha => listMAdjStep_eq hA hW hXY s (List.mem_range.mp ha))]
  rw [foldl_filter_best (MCond G X Y V) (Zsel V)]
  rfl

/-! The best-set fold picks the first set of minimal length. -/

lemma bestStep_foldl_spec :
    ∀ (l : List (List String)) (b0 : List String),
      ∃ b, l.foldl bestStep (some b0) = some b ∧ (b = b0 ∨ b ∈ l) ∧
        b.length ≤ b0.length ∧ ∀ S ∈ l, b.length ≤ S.length := by
  intro l
  induction l with
  | nil =>
      intro b0
      exact ⟨b0, rfl, Or.inl rfl, le_refl _, by simp⟩
  | cons Z t ih =>
      intro b0
      rw [List.foldl_cons]
      have hres : bestStep (some b0) Z = if Z.length < b0.length then some Z else some b0 :=
        rfl
      rw [hres]
      by_cases hlt : Z.length < b0.length
      · rw [if_pos hlt]
        obtain ⟨b, hfold, hmem, hlen, hall⟩ := ih Z
        refine ⟨b, hfold, ?_, ?_, ?_⟩
        · rcases hmem with h | h
          · subst h
            exact Or.inr (List.mem_cons_self _ _)
          · exact Or.inr (List.mem_cons_of_mem Z h)
        · omega
        · intro S hS
          rcases List.mem_cons.mp hS with h | h
          · subst h
            exact hlen
          · exact hall S h
      · rw [if_neg hlt]
        obtain ⟨b, hfold, hmem, hlen, hall⟩ := ih b0
        refine ⟨b, hfold, ?_, hlen, ?_⟩
        · rcases hmem with h | h
          · exact Or.inl h
          · exact Or.inr (List.mem_cons_of_mem Z h)
        · intro S hS
          rcases List.mem_cons.mp hS with h | h
          · subst h
            omega
          · exact hall S h

lemma bestOf_none_iff (l : List (List String)) : bestOf l = none ↔ l = [] := by
  cases l with
  | nil => simp [bestOf]
  | cons Z t =>
      simp only [bestOf, List.foldl_cons]
      obtain ⟨b, hfold, _, _, _⟩ := bestStep_foldl_spec t Z
      show t.foldl bestStep (bestStep none Z) = none ↔ _
      have hinit : bestStep none Z = some Z := rfl
      rw [hinit, hfold]
      simp

lemma bestOf_min {l : List (List String)} {b : List String} (h : bestOf l = some b) :
    b ∈ l ∧ ∀ S ∈ l, b.length ≤ S.length := by
  cases l with
  | nil => cases h
  | cons Z t =>
      obtain ⟨b2, hfold, hmem, hlen, hall⟩ := bestStep_foldl_spec t Z
      have hb2 : b2 = b := by
        have : bestOf (Z :: t) = some b2 := by
          simp only [bestOf, List.foldl_cons]
          show t.foldl bestStep (bestStep none Z) = some b2
          have hinit : bestStep none Z = some Z := rfl
          rw [hinit]
          exact hfold
        rw [this] at h
        exact (Option.some.injEq _ _ ▸ h)
      subst hb2
      constructor
      · rcases hmem with h2 | h2
        · subst h2
          exact List.mem_cons_self _ _
        · exact List.mem_cons_of_mem Z h2
      · intro S hS
        rcases List.mem_cons.mp hS with h2 | h2
        · subst h2
          exact hlen
        · exact hall S h2


/-! Remaining supporting lemmas for the claim theorems. -/

lemma acyclic_of_rank (G : DiGraph) (r : String → Nat)
    (h : ∀ e ∈ G.edges, r e.1 < r e.2) : Acyclic G := by
  intro v hv
  have hmono : ∀ a b, Relation.TransGen (Edge G) a b → r a < r b := by
    intro a b hab
    induction hab with
    | single he => exact h _ he
    | tail _ he ih => exact lt_trans ih (h _ he)
  exact lt_irrefl _ (hmono v v hv)

lemma walk_reaches {G : DiGraph} :
    ∀ {p : List String} {a b : String}, IsWalk G p → p.head? = some a →
      p.getLast? = some b → ReachesF G a b := by
  intro p
  induction p with
  | nil => intro a b _ h _; cases h
  | cons x t ih =>
      intro a b hw hh hl
      have hx : x = a := by simpa using hh
      subst hx
      cases t with
      | nil =>
          have hb : x = b := by simpa using hl
          subst hb
          exact Relation.ReflTransGen.refl
      | cons y t2 =>
          have hxy : Edge G x y := (List.chain'_cons.mp hw).1
          have hrest : ReachesF G y b := by
            apply ih (List.chain'_cons.mp hw).2 rfl
            rwa [List.getLast?_cons_cons] at hl
          exact Relation.ReflTransGen.head hxy hrest

lemma not_reaches_of_no_succ {G : DiGraph} {X Y : String}
    (hs : successors G X = []) (hXY : X ≠ Y) : ¬ ReachesF G X Y := by
  intro h
  rcases Relation.ReflTransGen.cases_head h with h1 | ⟨c, hc, _⟩
  · exact hXY h1
  · have : c ∈ successors G X := mem_successors.mpr hc
    rw [hs] at this
    cases this

lemma fPCP_empty_of_not_reaches {G : DiGraph} (hA : Acyclic G) (hW : WF G)
    {X Y : String} (hnr : ¬ ReachesF G X Y) :
    findProperCausalPath G X Y = [] := by
  apply List.eq_nil_iff_forall_not_mem.mpr
  intro pa hpa
  obtain ⟨w, hwft, _⟩ := (mem_findProperCausalPath hA hW X Y pa).mp hpa
  exact hnr (walk_reaches hwft.1 hwft.2.1 hwft.2.2)

lemma dpcpList_walks {G : DiGraph} (hA : Acyclic G) (hW : WF G) {X Y : String}
    (hXY : X ≠ Y) (v : String) :
    v ∈ dpcpList G (findProperCausalPath G X Y) ↔
      ∃ u w, IsWalkFromTo G w X Y ∧ u ∈ w ∧ ReachesF G u v := by
  rw [mem_dpcpList]
  constructor
  · rintro ⟨pa, hpa, e, he, hdesc⟩
    obtain ⟨w, hwft, hpe⟩ := (mem_findProperCausalPath hA hW X Y pa).mp hpa
    subst hpe
    have hend := mem_toEdgePath_endpoints he
    rcases hdesc with hd | hd
    · exact ⟨e.1, w, hwft, hend.1, (mem_findDescendants hA hW _ v).mp hd⟩
    · exact ⟨e.2, w, hwft, hend.2, (mem_findDescendants hA hW _ v).mp hd⟩
  · rintro ⟨u, w, hwft, huw, hR⟩
    have h2 : 2 ≤ w.length := walkFromTo_two_le hwft.2.1 hwft.2.2 hXY
    obtain ⟨e, he, heu⟩ := mem_walk_toEdgePath h2 huw
    refine ⟨toEdgePath w, (mem_findProperCausalPath hA hW X Y _).mpr ⟨w, hwft, rfl⟩,
      e, he, ?_⟩
    rcases heu with h | h
    · exact Or.inl ((mem_findDescendants hA hW _ v).mpr (h ▸ hR))
    · exact Or.inr ((mem_findDescendants hA hW _ v).mpr (h ▸ hR))

lemma selIdx_mem_lt {n i j : Nat} (hj : j ∈ selIdx n i) : j < n := by
  unfold selIdx at hj
  exact List.mem_range.mp (List.mem_filter.mp hj).1

lemma Zsel_nodup {V : List (String × Option String)}
    (hnames : (V.map Prod.fst).Nodup) (i : Nat) : (Zsel V i).Nodup := by
  unfold Zsel
  apply List.Nodup.map_on
  · intro j hj j2 hj2 heq
    have h1 : j < V.length := selIdx_mem_lt hj
    have h2 : j2 < V.length := selIdx_mem_lt hj2
    have hm1 : j < (V.map Prod.fst).length := by simpa using h1
    have hm2 : j2 < (V.map Prod.fst).length := by simpa using h2
    have e1 : (V.getD j (default, none)).1 = (V.map Prod.fst).getD j default := by
      rw [List.getD_eq_getElem _ _ h1, List.getD_eq_getElem _ _ hm1, List.getElem_map]
    have e2 : (V.getD j2 (default, none)).1 = (V.map Prod.fst).getD j2 default := by
      rw [List.getD_eq_getElem _ _ h2, List.getD_eq_getElem _ _ hm2, List.getElem_map]
    rw [e1, e2] at heq
    rw [List.getD_eq_getElem _ _ hm1, List.getD_eq_getElem _ _ hm2] at heq
    exact (hnames.getElem_inj_iff).mp heq
  · unfold selIdx
    exact (List.nodup_range V.length).filter _

lemma validSpec_shape {G : DiGraph} {X Y : String} {V : List (String × Option String)}
    {S : List String} (h : S ∈ validSpec G X Y V) : ∃ i, S = Zsel V i := by
  unfold validSpec at h
  obtain ⟨i, _, hi⟩ := List.mem_filterMap.mp h
  by_cases hc : MCond G X Y V i = true
  · rw [if_pos hc] at hi
    exact ⟨i, (Option.some.injEq _ _ ▸ hi).symm⟩
  · rw [if_neg hc] at hi
    cases hi

lemma validSpec_card {G : DiGraph} {X Y : String} {V : List (String × Option String)}
    (hnames : (V.map Prod.fst).Nodup) {S : List String} (h : S ∈ validSpec G X Y V) :
    S.toFinset.card = S.length := by
  obtain ⟨i, hi⟩ := validSpec_shape h
  subst hi
  exact List.toFinset_card_of_nodup (Zsel_nodup hnames i)

lemma walk_of_subgraph {G H : DiGraph} (hsub : ∀ e ∈ H.edges, e ∈ G.edges)
    {p : List String} (hp : IsWalk H p) : IsWalk G p :=
  List.Chain'.imp (fun a b hab => hsub (a, b) hab) hp


/-! Acyclicity and well-formedness of the concrete instances. -/

lemma g1_acyclic : Acyclic g1 :=
  acyclic_of_rank g1 (rankIn g1Topo) (by decide)

lemma g1_wf : WF g1 :=
  ⟨by decide, by decide, by decide⟩

lemma cexG_acyclic : Acyclic cexG :=
  acyclic_of_rank cexG (rankIn [nmX, nmY, nmV0, nmV1]) (by decide)

lemma cexG_wf : WF cexG :=
  ⟨by decide, by decide, by decide⟩

lemma forkG_acyclic : Acyclic forkG :=
  acyclic_of_rank forkG (rankIn [nmC, nmX, nmY]) (by decide)

lemma forkG_wf : WF forkG :=
  ⟨by decide, by decide, by decide⟩

lemma diamondG_acyclic : Acyclic diamondG :=
  acyclic_of_rank diamondG (rankIn [nmU, nmB, nmC, nmD]) (by decide)

lemma diamondG_wf : WF diamondG :=
  ⟨by decide, by decide, by decide⟩

/-- Claim C3: for every acyclic DAG G and distinct nodes X, Y of G,
findProperCausalPath(G, X, Y) enumerates exactly the simple directed paths
from X to Y with no interior occurrence of X, each distinct path exactly once
(membership characterization, duplicate freedom, and simplicity of every such
path); in particular, on the scenario-S1 graph it returns exactly the three
paths [A,M1,Y], [A,M2,Y], [A,M1,M2,Y] in the code's edge-list
representation. -/
theorem claim_C3 {G : DiGraph} {X Y : String} (hA : Acyclic G) (hW : WF G)
    (hXY : X ≠ Y) :
    (∀ ep, ep ∈ findProperCausalPath G X Y ↔
      ∃ w, IsWalkFromTo G w X Y ∧ ep = toEdgePath w) ∧
    (findProperCausalPath G X Y).Nodup ∧
    (∀ w, IsWalkFromTo G w X Y → w.Nodup ∧ ∀ x ∈ w.tail, x ≠ X) ∧
    findProperCausalPath g1 nmA nmY =
      [[(nmA, nmM2), (nmM2, nmY)], [(nmA, nmM1), (nmM1, nmM2), (nmM2, nmY)],
       [(nmA, nmM1), (nmM1, nmY)]] ∧
    (findProperCausalPath g1 nmA nmY).length = 3 ∧
    [(nmA, nmM1), (nmM1, nmY)] ∈ findProperCausalPath g1 nmA nmY ∧
    [(nmA, nmM2), (nmM2, nmY)] ∈ findProperCausalPath g1 nmA nmY ∧
    [(nmA, nmM1), (nmM1, nmM2), (nmM2, nmY)] ∈ findProperCausalPath g1 nmA nmY := by
  refine ⟨fun ep => mem_findProperCausalPath hA hW X Y ep,
    nodup_findProperCausalPath hA hW hXY,
    fun w hw => walk_head_nodup hA hw.1 hw.2.1, by rfl, by decide, by decide, by decide,
    by decide⟩

/-- Witness for claim C3 at the scenario-S1 graph. -/
theorem claim_C3_witness :
    (findProperCausalPath g1 nmA nmY).Nodup ∧
    (findProperCausalPath g1 nmA nmY).length = 3 :=
  ⟨(@claim_C3 g1 nmA nmY g1_acyclic g1_wf (by decide)).2.1,
   (@claim_C3 g1 nmA nmY g1_acyclic g1_wf (by decide)).2.2.2.2.1⟩

/-- Claim C4: for every acyclic DAG G and distinct nodes X, Y, the proper
backdoor graph built from findProperCausalPath(G, X, Y) is produced without
error, keeps the node set of G, and contains no directed path from X to Y. -/
theorem claim_C4 {G : DiGraph} {X Y : String} (hA : Acyclic G) (hW : WF G)
    (hXY : X ≠ Y) :
    (∃ H, createProperBackdoorGraph G (findProperCausalPath G X Y) = Except.ok H) ∧
    (∀ H, createProperBackdoorGraph G (findProperCausalPath G X Y) = Except.ok H →
      H.nodes = G.nodes ∧ ¬ ∃ p, IsWalkFromTo H p X Y) := by
  have hcr := createProperBackdoorGraph_eq (findProperCausalPath G X Y) G hW.2.1
    (pcp_ne_nil hA hW hXY)
  refine ⟨⟨_, hcr⟩, ?_⟩
  intro H hH
  rw [hcr] at hH
  have hHe := Except.ok.inj hH
  subst hHe
  refine ⟨rfl, ?_⟩
  rintro ⟨p, hpw, hph, hpl⟩
  have hsub : ∀ e ∈ (G.edges.filter
      (fun e => decide (e ∉ firstEdges (findProperCausalPath G X Y)))), e ∈ G.edges :=
    fun e he => List.mem_of_mem_filter he
  have h2 : 2 ≤ p.length := walkFromTo_two_le hph hpl hXY
  cases p with
  | nil => cases hph
  | cons x t =>
      have hx : x = X := by simpa using hph
      cases t with
      | nil => simp at h2
      | cons c rest =>
          have hedge : (x, c) ∈ G.edges.filter
              (fun e => decide (e ∉ firstEdges (findProperCausalPath G X Y))) :=
            (List.chain'_cons.mp hpw).1
          have hpG : IsWalk G (x :: c :: rest) := walk_of_subgraph hsub hpw
          have hmem : toEdgePath (x :: c :: rest) ∈ findProperCausalPath G X Y :=
            (mem_findProperCausalPath hA hW X Y _).mpr ⟨_, ⟨hpG, hph, hpl⟩, rfl⟩
          have hfe : (x, c) ∈ firstEdges (findProperCausalPath G X Y) :=
            List.mem_filterMap.mpr ⟨toEdgePath (x :: c :: rest), hmem, rfl⟩
          have hnot := (List.mem_filter.mp hedge).2
          simp only [decide_eq_true_eq] at hnot
          exact hnot hfe

/-- Witness for claim C4 at the scenario-S1 graph. -/
theorem claim_C4_witness :
    ∃ H, createProperBackdoorGraph g1 (findProperCausalPath g1 nmA nmY) =
      Except.ok H :=
  (@claim_C4 g1 nmA nmY g1_acyclic g1_wf (by decide)).1

/-- Claim C5: each transform returns, without error, a fresh graph with the
same node set and the specified edge set: the proper backdoor graph drops the
first edge of every path (duplicate first edges are removed once, later
removal attempts being silent no-ops thanks to the has_edge guard), the
above-graph drops every edge whose sink is X, the below-graph every edge
whose source is X.  Mutation of the input cannot arise in this embedding; the
functional content is the Except.ok equations below. -/
theorem claim_C5 {G : DiGraph} (X : String) (paths : List (List (String × String)))
    (hW : WF G) (hpaths : ∀ pa ∈ paths, pa ≠ []) :
    createProperBackdoorGraph G paths = Except.ok (pbdSpec G paths) ∧
    createGXBarAbove G X = Except.ok (gxAboveSpec G X) ∧
    createGXBarBelow G X = Except.ok (gxBelowSpec G X) ∧
    (pbdSpec G paths).nodes = G.nodes ∧
    (gxAboveSpec G X).nodes = G.nodes ∧
    (gxBelowSpec G X).nodes = G.nodes ∧
    (∀ e, e ∈ (pbdSpec G paths).edges ↔ e ∈ G.edges ∧ e ∉ firstEdges paths) ∧
    (∀ e, e ∈ (gxAboveSpec G X).edges ↔ e ∈ G.edges ∧ e.2 ≠ X) ∧
    (∀ e, e ∈ (gxBelowSpec G X).edges ↔ e ∈ G.edges ∧ e.1 ≠ X) := by
  refine ⟨createProperBackdoorGraph_eq paths G hW.2.1 hpaths,
    createGXBarAbove_eq hW X, createGXBarBelow_eq hW X, rfl, rfl, rfl, ?_, ?_, ?_⟩
  · intro e
    show e ∈ G.edges.filter _ ↔ _
    rw [List.mem_filter]
    simp
  · intro e
    show e ∈ G.edges.filter _ ↔ _
    rw [List.mem_filter]
    simp
  · intro e
    show e ∈ G.edges.filter _ ↔ _
    rw [List.mem_filter]
    simp

/-- Witness for claim C5 at the scenario-S1 graph: a paths list with a
repeated first edge is handled without error. -/
theorem claim_C5_witness :
    createProperBackdoorGraph g1 [[(nmA, nmM1)], [(nmA, nmM1), (nmM1, nmY)]] =
      Except.ok (pbdSpec g1 [[(nmA, nmM1)], [(nmA, nmM1), (nmM1, nmY)]]) ∧
    createGXBarAbove g1 nmA = Except.ok (gxAboveSpec g1 nmA) :=
  ⟨(@claim_C5 g1 nmA [[(nmA, nmM1)], [(nmA, nmM1), (nmM1, nmY)]] g1_wf (by decide)).1,
   (@claim_C5 g1 nmA [[(nmA, nmM1)], [(nmA, nmM1), (nmM1, nmY)]] g1_wf (by decide)).2.1⟩


/-- Claim C8: for every acyclic well-formed DAG, isAncestor(G, x, V) is true
iff x lies in the ancestor closure of some member of V (including x itself
when x is a member), and the round-trip holds: v is in findDescendants(G, u)
iff isAncestor(G, u, [v]) is true. -/
theorem claim_C8 {G : DiGraph} (hA : Acyclic G) (hW : WF G) :
    (∀ x V2, isAncestor G x V2 = true ↔ ∃ v ∈ V2, ReachesF G x v) ∧
    (∀ u v, v ∈ findDescendants G u ↔ isAncestor G u [v] = true) := by
  refine ⟨fun x V2 => isAncestor_iff hA hW x V2, fun u v => ?_⟩
  rw [mem_findDescendants hA hW, isAncestor_iff hA hW]
  simp

/-- Witness for claim C8 at the scenario-S1 graph. -/
theorem claim_C8_witness :
    (isAncestor g1 nmA [nmY] = true ↔ ∃ v ∈ [nmY], ReachesF g1 nmA v) ∧
    (nmY ∈ findDescendants g1 nmA ↔ isAncestor g1 nmA [nmY] = true) :=
  ⟨(@claim_C8 g1 g1_acyclic g1_wf).1 nmA [nmY],
   (@claim_C8 g1 g1_acyclic g1_wf).2 nmA nmY⟩

/-- Claim C9 (amended): findDescendants(G, v) lists exactly v and the nodes
reachable from v along forward edges, with v first; but it is a list with
repetitions, not a set: nodes reachable along several walks are listed once
per walk, because the DFS keeps no visited set. -/
theorem claim_C9_amended {G : DiGraph} (hA : Acyclic G) (hW : WF G) (v : String) :
    (∀ x, x ∈ findDescendants G v ↔ ReachesF G v x) ∧
    ∃ t, findDescendants G v = v :: t := by
  refine ⟨fun x => mem_findDescendants hA hW v x, ?_⟩
  rw [findDescendants_eq hA hW, descTree_unfold hA hW]
  exact ⟨_, rfl⟩

/-- Counterexample for claim C9 as stated: on the diamond graph the vertex d
is reachable along two walks from u and is listed twice, so the result is not
a duplicate-free set of nodes. -/
theorem claim_C9_counterexample :
    findDescendants diamondG nmU = [nmU, nmC, nmD, nmB, nmD] ∧
    ¬ (findDescendants diamondG nmU).Nodup := by
  refine ⟨by rfl, by decide⟩

/-- Witness for claim C9 (amended) at the diamond graph. -/
theorem claim_C9_witness :
    (nmD ∈ findDescendants diamondG nmU ↔ ReachesF diamondG nmU nmD) ∧
    ∃ t, findDescendants diamondG nmU = nmU :: t :=
  ⟨(@claim_C9_amended diamondG diamondG_acyclic diamondG_wf nmU).1 nmD,
   (@claim_C9_amended diamondG diamondG_acyclic diamondG_wf nmU).2⟩

/-- Claim C10: although the stack traversals keep no visited set, on every
acyclic well-formed graph each of the three DFS loops runs its stack to
empty within the default fuel (every push moves strictly along the partial
order), and listMAdj returns normally; acyclicity is genuinely required: on
the two-cycle graph the descendants loop never empties its stack, whatever
the fuel. -/
theorem claim_C10 :
    (∀ (G : DiGraph) (v : String), Acyclic G → WF G → descTerminated G v) ∧
    (∀ (G : DiGraph) (X v : String), Acyclic G → WF G → ancTerminated G X v) ∧
    (∀ (G : DiGraph) (X Y : String), Acyclic G → WF G → pcpTerminated G X Y) ∧
    (∀ (G : DiGraph) (X Y : String) (V : List (String × Option String)),
      Acyclic G → WF G → X ≠ Y → ∃ r, listMAdj G X Y V = Except.ok r) ∧
    (∀ fuel acc, (descLoop cycG fuel ([nmB], acc)).1 ≠ []) := by
  have key : ∀ fuel (s : String) (acc : List String), (s = nmB ∨ s = nmC) →
      (descLoop cycG fuel ([s], acc)).1 ≠ [] := by
    intro fuel
    induction fuel with
    | zero =>
        intro s acc _
        show ([s] : List String) ≠ []
        simp
    | succ fuel ih =>
        intro s acc hs
        show (descLoop cycG fuel
          ((successors cycG s).reverse ++ [], acc ++ [s])).1 ≠ []
        rcases hs with h | h
        · subst h
          have hsucc : successors cycG nmB = [nmC] := rfl
          rw [hsucc]
          exact ih nmC (acc ++ [nmB]) (Or.inr rfl)
        · subst h
          have hsucc : successors cycG nmC = [nmB] := rfl
          rw [hsucc]
          exact ih nmB (acc ++ [nmC]) (Or.inl rfl)
  exact ⟨fun G v hA hW => descTerminated_of_acyclic hA hW v,
    fun G X v hA hW => ancTerminated_of_acyclic hA hW X v,
    fun G X Y hA hW => pcpTerminated_of_acyclic hA hW X Y,
    fun G X Y V hA hW hXY => ⟨_, listMAdj_char hA hW hXY⟩,
    fun fuel acc => key fuel nmB acc (Or.inl rfl)⟩

/-- Witness for claim C10 at the scenario-S1 graph. -/
theorem claim_C10_witness :
    descTerminated g1 nmA ∧ ancTerminated g1 nmA nmY ∧ pcpTerminated g1 nmA nmY ∧
    ∃ r, listMAdj g1 nmA nmY [] = Except.ok r :=
  ⟨claim_C10.1 g1 nmA g1_acyclic g1_wf,
   claim_C10.2.1 g1 nmA nmY g1_acyclic g1_wf,
   claim_C10.2.2.1 g1 nmA nmY g1_acyclic g1_wf,
   claim_C10.2.2.2.1 g1 nmA nmY [] g1_acyclic g1_wf (by decide)⟩


/-- Claim C1 (amended): for every well-formed input, listMAdj iterates every
subset of V exactly once in increasing counter order i = 0 .. 2^n - 1, and
returns without error exactly the candidates passing the four M-adjustment
conditions, in that order, with Z = the names V[j] for which bit n - 1 - j of
i is set (position j of the zero-filled most-significant-first binary string
of i), R_W as described, D_pcp being the descendants of the endpoints of the
edges of the proper causal paths; the best set is the first one of minimal
size.  (The claim as stated, with bit j of i selecting V[j], is refuted by
the counterexample below.) -/
theorem claim_C1_amended {G : DiGraph} {X Y : String}
    {V : List (String × Option String)} (hA : Acyclic G) (hW : WF G) (hXY : X ≠ Y)
    (_hXn : X ∈ G.nodes) (_hYn : Y ∈ G.nodes) (_hnames : (V.map Prod.fst).Nodup)
    (_hind : ∀ e ∈ V, ∀ m, e.2 = some m → m ∈ G.nodes) :
    listMAdj G X Y V = Except.ok (validSpec G X Y V, bestOf (validSpec G X Y V)) ∧
    (∀ v, v ∈ dpcpList G (findProperCausalPath G X Y) ↔
      ∃ u w, IsWalkFromTo G w X Y ∧ u ∈ w ∧ ReachesF G u v) :=
  ⟨listMAdj_char hA hW hXY, fun v => dpcpList_walks hA hW hXY v⟩

/-- Counterexample for claim C1 as stated: on the instance with one causal
edge X to Y and two isolated candidate variables v0, v1, every subset is
valid, so valid_sets must equal the subsets in enumeration order; the code
yields empty, v1, v0, both, whereas the claim's Z = set of V[j] for the set
bits j of i yields empty, v0, v1, both. -/
theorem claim_C1_counterexample :
    listMAdj cexG nmX nmY cexV =
      Except.ok ([[], [nmV1], [nmV0], [nmV0, nmV1]], some []) ∧
    validClaim cexG nmX nmY cexV = [[], [nmV0], [nmV1], [nmV0, nmV1]] ∧
    ([[], [nmV1], [nmV0], [nmV0, nmV1]] : List (List String)) ≠
      [[], [nmV0], [nmV1], [nmV0, nmV1]] :=
  ⟨by rfl, by rfl, by decide⟩

/-- Witness for claim C1 (amended) at the counterexample instance. -/
theorem claim_C1_witness :
    listMAdj cexG nmX nmY cexV =
      Except.ok (validSpec cexG nmX nmY cexV, bestOf (validSpec cexG nmX nmY cexV)) :=
  (@claim_C1_amended cexG nmX nmY cexV cexG_acyclic cexG_wf (by decide) (by decide)
    (by decide) (by decide) (by decide)).1

/-- Claim C2: for every well-formed input, the returned best_set is null
exactly when valid_sets is empty, and otherwise is a member of valid_sets of
minimum cardinality. -/
theorem claim_C2 {G : DiGraph} {X Y : String} {V : List (String × Option String)}
    (hA : Acyclic G) (hW : WF G) (hXY : X ≠ Y) (hnames : (V.map Prod.fst).Nodup) :
    ∃ vs bs, listMAdj G X Y V = Except.ok (vs, bs) ∧ (bs = none ↔ vs = []) ∧
      ∀ b, bs = some b → b ∈ vs ∧ ∀ S ∈ vs, b.toFinset.card ≤ S.toFinset.card := by
  refine ⟨validSpec G X Y V, bestOf (validSpec G X Y V), listMAdj_char hA hW hXY,
    bestOf_none_iff _, ?_⟩
  intro b hb
  obtain ⟨hmem, hmin⟩ := bestOf_min hb
  refine ⟨hmem, ?_⟩
  intro S hS
  rw [validSpec_card hnames hmem, validSpec_card hnames hS]
  exact hmin S hS

/-- Witness for claim C2 at the counterexample instance. -/
theorem claim_C2_witness :
    ∃ vs bs, listMAdj cexG nmX nmY cexV = Except.ok (vs, bs) ∧
      (bs = none ↔ vs = []) ∧
      ∀ b, bs = some b → b ∈ vs ∧ ∀ S ∈ vs, b.toFinset.card ≤ S.toFinset.card :=
  @claim_C2 cexG nmX nmY cexV cexG_acyclic cexG_wf (by decide) (by decide)

/-- Counterexample for claim C6 as stated: V with a duplicate entry is a
malformed input, yet listMAdj returns a normal (valid_sets, best_set) result
instead of failing with an InvalidArguments error. -/
theorem claim_C6_counterexample :
    ¬ (dupV.map Prod.fst).Nodup ∧
    listMAdj cexG nmX nmY dupV =
      Except.ok ([[], [nmV0], [nmV0], [nmV0, nmV0]], some []) :=
  ⟨by decide, by rfl⟩

/-- Claim C6 (amended): listMAdj performs no input validation of its own;
with duplicate entries in V it returns a normal result, and with X = Y it
fails only incidentally, with the IndexError raised by indexing the empty
first path inside createProperBackdoorGraph, never with a dedicated
InvalidArguments error. -/
theorem claim_C6_amended :
    listMAdj cexG nmX nmY dupV =
      Except.ok ([[], [nmV0], [nmV0], [nmV0, nmV0]], some []) ∧
    listMAdj singleG nmX nmX [] = Except.error PyError.indexError :=
  ⟨by rfl, by rfl⟩

/-- Claim C7 (amended): when G has no directed path from X to Y, the proper
causal path list is empty, the proper backdoor graph equals G itself, and
listMAdj completes without error; but candidate subsets need not satisfy
condition C2 there, since backdoor paths can still d-connect X and Y (see
the counterexample). -/
theorem claim_C7_amended {G : DiGraph} {X Y : String}
    (V : List (String × Option String)) (hA : Acyclic G) (hW : WF G)
    (hnr : ¬ ReachesF G X Y) :
    findProperCausalPath G X Y = [] ∧
    createProperBackdoorGraph G (findProperCausalPath G X Y) = Except.ok G ∧
    ∃ r, listMAdj G X Y V = Except.ok r := by
  have hXY : X ≠ Y := by
    intro h
    exact hnr (h ▸ Relation.ReflTransGen.refl)
  have hempty : findProperCausalPath G X Y = [] := fPCP_empty_of_not_reaches hA hW hnr
  refine ⟨hempty, ?_, ⟨_, listMAdj_char hA hW hXY⟩⟩
  rw [hempty]
  rfl

/-- Counterexample for claim C7 as stated: in the fork graph C to X, C to Y
there is no directed path from X to Y, the input with V empty is well-formed
and listMAdj completes, yet the candidate subset Z = empty fails condition C2:
Y is not d-separated from X given the empty set in the proper backdoor graph,
which equals the fork graph itself. -/
theorem claim_C7_counterexample :
    (¬ ReachesF forkG nmX nmY) ∧
    findProperCausalPath forkG nmX nmY = [] ∧
    dSeparated forkG [nmY] [nmX] [] = false ∧
    listMAdj forkG nmX nmY [] = Except.ok ([], none) := by
  refine ⟨not_reaches_of_no_succ (by rfl) (by decide), by rfl, by rfl, by rfl⟩

/-- Witness for claim C7 (amended) at the fork graph. -/
theorem claim_C7_witness :
    findProperCausalPath forkG nmX nmY = [] ∧
    ∃ r, listMAdj forkG nmX nmY [] = Except.ok r :=
  ⟨(@claim_C7_amended forkG nmX nmY [] forkG_acyclic forkG_wf
      (not_reaches_of_no_succ (by rfl) (by decide))).1,
   (@claim_C7_amended forkG nmX nmY [] forkG_acyclic forkG_wf
      (not_reaches_of_no_succ (by rfl) (by decide))).2.2⟩

end MAdj
